import Mathlib

/-!
CurrentMetrics.

A shallow embedding of `dbms/include/DB/Common/CurrentMetrics.h`: the metric
enumeration, the table `values[END]` of 64-bit gauges, the free functions
`set`, `add`, `sub`, and the class `Increment`.

Modelling decisions.

* `Value` is `int64_t`.  It is embedded as `Int`, every arithmetic result
  being reduced by `wrap64` to the two's complement range
  `[-2^63, 2^63)`.  `isInt64` states membership in that range.
* `values` is a list of `Value`; a slot is addressed by its index.  An access
  outside the list is the fault `outOfBounds`.
* `std::atomic<Value> * what` is `Option Nat`: `some i` is `&values[i]`,
  `none` is `nullptr`.  Dereferencing `none` is the fault `nullDereference`.
* The plain `int64_t` expressions `-value` (in `sub`) and
  `new_amount - amount` (in `changeTo`) are reduced by `wrap64` as well.
* The embedding is sequential: one operation at a time, each atomic
  read-modify-write being a single step on the table.
* Threads are lists of calls, and a parallel run is a schedule that picks, at
  each tick, the thread that performs its next call (`runSchedule`): the
  operators `=`, `+=` and `-=` of `std::atomic` are sequentially consistent,
  so the calls on the table happen in one total order.
* The `Increment` objects of an owner thread are kept in a list and addressed
  by position (`State`), so that an assignment can name the same object on
  both sides.
-/

namespace CurrentMetrics

/-- Metric kinds: the enumerators generated from `APPLY_FOR_METRICS`, in the
order of the list, the last one being the sentinel `END`. -/
inductive Metric where
  | Query
  | Merge
  | ReplicatedFetch
  | ReplicatedSend
  | ReplicatedChecks
  | BackgroundPoolTask
  | DiskSpaceReservedForMerge
  | DistributedSend
  | QueryPreempted
  | TCPConnection
  | HTTPConnection
  | InterserverConnection
  | OpenFileForRead
  | OpenFileForWrite
  | Read
  | Write
  | SendExternalTables
  | QueryThread
  | ReadonlyReplica
  | MemoryTracking
  | MarkCacheBytes
  | MarkCacheFiles
  | UncompressedCacheBytes
  | UncompressedCacheCells
  | ReplicasMaxQueueSize
  | ReplicasMaxInsertsInQueue
  | ReplicasMaxMergesInQueue
  | ReplicasSumQueueSize
  | ReplicasSumInsertsInQueue
  | ReplicasSumMergesInQueue
  | ReplicasMaxAbsoluteDelay
  | ReplicasMaxRelativeDelay
  | MaxPartCountForPartition
  | END
  deriving DecidableEq, Repr

/-- The integer value of an enumerator: its position in `APPLY_FOR_METRICS`,
counted from zero. -/
def Metric.toNat : Metric → Nat
  | .Query => 0
  | .Merge => 1
  | .ReplicatedFetch => 2
  | .ReplicatedSend => 3
  | .ReplicatedChecks => 4
  | .BackgroundPoolTask => 5
  | .DiskSpaceReservedForMerge => 6
  | .DistributedSend => 7
  | .QueryPreempted => 8
  | .TCPConnection => 9
  | .HTTPConnection => 10
  | .InterserverConnection => 11
  | .OpenFileForRead => 12
  | .OpenFileForWrite => 13
  | .Read => 14
  | .Write => 15
  | .SendExternalTables => 16
  | .QueryThread => 17
  | .ReadonlyReplica => 18
  | .MemoryTracking => 19
  | .MarkCacheBytes => 20
  | .MarkCacheFiles => 21
  | .UncompressedCacheBytes => 22
  | .UncompressedCacheCells => 23
  | .ReplicasMaxQueueSize => 24
  | .ReplicasMaxInsertsInQueue => 25
  | .ReplicasMaxMergesInQueue => 26
  | .ReplicasSumQueueSize => 27
  | .ReplicasSumInsertsInQueue => 28
  | .ReplicasSumMergesInQueue => 29
  | .ReplicasMaxAbsoluteDelay => 30
  | .ReplicasMaxRelativeDelay => 31
  | .MaxPartCountForPartition => 32
  | .END => 33

/-- The sentinel `END` as an array length: the value of the last enumerator. -/
def END : Nat := Metric.END.toNat

/-- The type `using Value = int64_t`, carried by `Int`. -/
abbrev Value := Int

/-- Membership in the range of `int64_t`. -/
def isInt64 (x : Int) : Prop := -9223372036854775808 ≤ x ∧ x < 9223372036854775808

instance (x : Int) : Decidable (isInt64 x) := by
  unfold isInt64; infer_instance

/-- Two's complement reduction of an integer to `int64_t` (reduction modulo
`2^64` into `[-2^63, 2^63)`). -/
def wrap64 (x : Int) : Int :=
  (x + 9223372036854775808) % 18446744073709551616 - 9223372036854775808

/-- What an operation does instead of returning when it leaves defined
behaviour. -/
inductive Fault where
  | nullDereference
  | outOfBounds
  deriving DecidableEq, Repr

instance {ε α : Type} [DecidableEq ε] [DecidableEq α] : DecidableEq (Except ε α) :=
  fun a b =>
    match a, b with
    | .ok x, .ok y => if h : x = y then isTrue (by rw [h]) else isFalse (by intro e; cases e; exact h rfl)
    | .error x, .error y => if h : x = y then isTrue (by rw [h]) else isFalse (by intro e; cases e; exact h rfl)
    | .ok _, .error _ => isFalse (by intro e; cases e)
    | .error _, .ok _ => isFalse (by intro e; cases e)

/-- The table `std::atomic<Value> values[END]`, as the list of its slots. -/
abbrev Registry := List Value

/-- A table as the program has it: `END` slots, each holding an `int64_t`. -/
def Registry.wf (values : Registry) : Prop :=
  values.length = END ∧ ∀ v ∈ values, isInt64 v

instance (values : Registry) : Decidable (Registry.wf values) := by
  unfold Registry.wf; infer_instance

/-- Modelled from the spec: the definition of `values` is not in the header,
which only declares it `extern` with `END` slots; the spec has every gauge
initialised to zero at process start, as static storage is. -/
def initialValues : Registry := List.replicate END 0

/-- Atomic load of slot `slot`. -/
def load (values : Registry) (slot : Nat) : Except Fault Value :=
  if h : slot < values.length then .ok values[slot] else .error .outOfBounds

/-- Atomic store `values[slot] = value`. -/
def store (values : Registry) (slot : Nat) (value : Value) : Except Fault Registry :=
  if slot < values.length then .ok (values.set slot value) else .error .outOfBounds

/-- Atomic read-modify-write `values[slot] += d`. -/
def fetchAdd (values : Registry) (slot : Nat) (d : Value) : Except Fault Registry :=
  if h : slot < values.length then .ok (values.set slot (wrap64 (values[slot] + d)))
  else .error .outOfBounds

/-- Atomic read-modify-write `values[slot] -= d`. -/
def fetchSub (values : Registry) (slot : Nat) (d : Value) : Except Fault Registry :=
  if h : slot < values.length then .ok (values.set slot (wrap64 (values[slot] - d)))
  else .error .outOfBounds

/-- The function `set(Metric metric, Value value)`: `values[metric] = value`. -/
def set (values : Registry) (metric : Metric) (value : Value) : Except Fault Registry :=
  store values metric.toNat value

/-- The function `add(Metric metric, Value value = 1)`: `values[metric] += value`. -/
def add (values : Registry) (metric : Metric) (value : Value) : Except Fault Registry :=
  fetchAdd values metric.toNat value

/-- The function `sub(Metric metric, Value value = 1)`: `add(metric, -value)`,
the negation being taken in `int64_t`. -/
def sub (values : Registry) (metric : Metric) (value : Value) : Except Fault Registry :=
  add values metric (wrap64 (-value))

/-- The class `Increment`: the pointer `what` (a slot index, or none for
`nullptr`) and the `amount`. -/
structure Increment where
  what : Option Nat
  amount : Value
  deriving DecidableEq, Repr

/-- The statement `*what += d` on a pointer member. -/
def derefAdd (values : Registry) (what : Option Nat) (d : Value) : Except Fault Registry :=
  match what with
  | none => .error .nullDereference
  | some slot => fetchAdd values slot d

/-- The statement `*what -= d` on a pointer member. -/
def derefSub (values : Registry) (what : Option Nat) (d : Value) : Except Fault Registry :=
  match what with
  | none => .error .nullDereference
  | some slot => fetchSub values slot d

/-- The private constructor `Increment(std::atomic<Value> * what, Value amount)`:
initialises both members, then `*what += amount`. -/
def Increment.ctorAt (values : Registry) (what : Option Nat) (amount : Value) :
    Except Fault (Registry × Increment) :=
  match derefAdd values what amount with
  | .error e => .error e
  | .ok values1 => .ok (values1, { what := what, amount := amount })

/-- The public constructor `Increment(Metric metric, Value amount = 1)`:
delegates to the private one with `&values[metric]`. -/
def Increment.ctor (values : Registry) (metric : Metric) (amount : Value) :
    Except Fault (Registry × Increment) :=
  Increment.ctorAt values (some metric.toNat) amount

/-- The destructor `~Increment()`: `if (what) *what -= amount;`.  The object
is gone afterwards, so only the table is returned. -/
def Increment.dtor (values : Registry) (self : Increment) : Except Fault Registry :=
  match self.what with
  | some slot => fetchSub values slot self.amount
  | none => .ok values

/-- The move assignment `operator= (Increment && old)` for two distinct
objects: copies `what` and `amount` from `old`, then sets `old.what` to
`nullptr`.  Returns the assigned object and the moved-from one; the table is
not touched. -/
def Increment.moveAssign (_self old : Increment) : Increment × Increment :=
  ({ what := old.what, amount := old.amount }, { old with what := none })

/-- The move constructor `Increment(Increment && old)`: `*this = std::move(old)`
on the new object, whose members are not initialised and are both overwritten.
Returns the new object and the moved-from one. -/
def Increment.moveCtor (old : Increment) : Increment × Increment :=
  Increment.moveAssign { what := none, amount := 0 } old

/-- The method `changeTo(Value new_amount)`: `*what += new_amount - amount;
amount = new_amount;`, the difference being taken in `int64_t`. -/
def Increment.changeTo (values : Registry) (self : Increment) (new_amount : Value) :
    Except Fault (Registry × Increment) :=
  match derefAdd values self.what (wrap64 (new_amount - self.amount)) with
  | .error e => .error e
  | .ok values1 => .ok (values1, { self with amount := new_amount })

/-- The method `destroy()`: `*what -= amount; what = nullptr;`. -/
def Increment.destroy (values : Registry) (self : Increment) :
    Except Fault (Registry × Increment) :=
  match derefSub values self.what self.amount with
  | .error e => .error e
  | .ok values1 => .ok (values1, { self with what := none })

/-- A metric that names a slot of the table: any enumerator below `END`. -/
def Metric.valid (m : Metric) : Prop := m.toNat < CurrentMetrics.END

instance (m : Metric) : Decidable m.valid := by
  unfold Metric.valid; infer_instance

/-- A caller that invokes `changeTo` with each amount of a list, in order,
stopping at the first fault. -/
def Increment.changeToAll (values : Registry) (self : Increment) :
    List Value → Except Fault (Registry × Increment)
  | [] => .ok (values, self)
  | k :: ks =>
    match Increment.changeTo values self k with
    | .error e => .error e
    | .ok (values1, self1) => Increment.changeToAll values1 self1 ks

/-- A caller that makes the same call `n` times in a row, stopping at the
first fault. -/
def repeatCalls (f : Registry → Except Fault Registry) : Nat → Registry → Except Fault Registry
  | 0, values => .ok values
  | n + 1, values =>
    match f values with
    | .error e => .error e
    | .ok values1 => repeatCalls f n values1

/-- A step that the owner of a handle takes through the public interface:
`changeTo`, `destroy`, or a move construction from the handle, after which the
owner goes on either with the new object or with the moved-from one. -/
inductive HandleOp where
  | changeTo (new_amount : Value)
  | destroy
  | moveTo
  | moveFrom
  deriving DecidableEq, Repr

/-- One step of the owner on the handle it currently follows. -/
def Increment.step (values : Registry) (self : Increment) :
    HandleOp → Except Fault (Registry × Increment)
  | .changeTo new_amount => Increment.changeTo values self new_amount
  | .destroy => Increment.destroy values self
  | .moveTo => .ok (values, (Increment.moveCtor self).1)
  | .moveFrom => .ok (values, (Increment.moveCtor self).2)

/-- A sequence of steps of the owner, stopping at the first fault. -/
def Increment.run (values : Registry) (self : Increment) :
    List HandleOp → Except Fault (Registry × Increment)
  | [] => .ok (values, self)
  | op :: ops =>
    match Increment.step values self op with
    | .error e => .error e
    | .ok (values1, self1) => Increment.run values1 self1 ops

/-- The handle produced by `Increment(metric, amount)` and then a sequence of
steps of its owner, with the table at that point. -/
def Increment.ctorThenRun (values : Registry) (metric : Metric) (amount : Value)
    (ops : List HandleOp) : Except Fault (Registry × Increment) :=
  match Increment.ctor values metric amount with
  | .error e => .error e
  | .ok (values1, self1) => Increment.run values1 self1 ops

/-- The pointer `what` is null or refers to a slot of the table. -/
def Increment.inTable (values : Registry) (self : Increment) : Prop :=
  ∀ slot, self.what = some slot → slot < values.length

/-- The list macro `APPLY_FOR_METRICS`: every entry `M(NAME)` yields the
enumerator `NAME` (in `enum Metric`) and the text `#NAME` (in `descriptions`),
so an entry is kept as that pair. -/
def APPLY_FOR_METRICS : List (Metric × String) :=
  [ (.Query, "Query"),
    (.Merge, "Merge"),
    (.ReplicatedFetch, "ReplicatedFetch"),
    (.ReplicatedSend, "ReplicatedSend"),
    (.ReplicatedChecks, "ReplicatedChecks"),
    (.BackgroundPoolTask, "BackgroundPoolTask"),
    (.DiskSpaceReservedForMerge, "DiskSpaceReservedForMerge"),
    (.DistributedSend, "DistributedSend"),
    (.QueryPreempted, "QueryPreempted"),
    (.TCPConnection, "TCPConnection"),
    (.HTTPConnection, "HTTPConnection"),
    (.InterserverConnection, "InterserverConnection"),
    (.OpenFileForRead, "OpenFileForRead"),
    (.OpenFileForWrite, "OpenFileForWrite"),
    (.Read, "Read"),
    (.Write, "Write"),
    (.SendExternalTables, "SendExternalTables"),
    (.QueryThread, "QueryThread"),
    (.ReadonlyReplica, "ReadonlyReplica"),
    (.MemoryTracking, "MemoryTracking"),
    (.MarkCacheBytes, "MarkCacheBytes"),
    (.MarkCacheFiles, "MarkCacheFiles"),
    (.UncompressedCacheBytes, "UncompressedCacheBytes"),
    (.UncompressedCacheCells, "UncompressedCacheCells"),
    (.ReplicasMaxQueueSize, "ReplicasMaxQueueSize"),
    (.ReplicasMaxInsertsInQueue, "ReplicasMaxInsertsInQueue"),
    (.ReplicasMaxMergesInQueue, "ReplicasMaxMergesInQueue"),
    (.ReplicasSumQueueSize, "ReplicasSumQueueSize"),
    (.ReplicasSumInsertsInQueue, "ReplicasSumInsertsInQueue"),
    (.ReplicasSumMergesInQueue, "ReplicasSumMergesInQueue"),
    (.ReplicasMaxAbsoluteDelay, "ReplicasMaxAbsoluteDelay"),
    (.ReplicasMaxRelativeDelay, "ReplicasMaxRelativeDelay"),
    (.MaxPartCountForPartition, "MaxPartCountForPartition"),
    (.END, "END") ]

/-- The static array `descriptions[]` inside `getDescription`: the text
`#NAME` of every entry of `APPLY_FOR_METRICS`, the sentinel included. -/
def descriptions : List String := APPLY_FOR_METRICS.map Prod.snd

/-- The function `getDescription(Metric event)`: `return descriptions[event];`. -/
def getDescription (event : Metric) : Except Fault String :=
  if h : event.toNat < descriptions.length then .ok descriptions[event.toNat]
  else .error .outOfBounds

/-- A call of one of the two free functions that change a gauge by a
difference: `add(metric, value)` or `sub(metric, value)`. -/
inductive Call where
  | add (metric : Metric) (value : Value)
  | sub (metric : Metric) (value : Value)
  deriving DecidableEq, Repr

/-- The metric a call is addressed to. -/
def Call.metric : Call → Metric
  | .add metric _ => metric
  | .sub metric _ => metric

/-- The difference a call applies: `value` for `add`, `-value` for `sub`. -/
def Call.delta : Call → Int
  | .add _ value => value
  | .sub _ value => -value

/-- Performing a call on the table. -/
def Call.exec (values : Registry) : Call → Except Fault Registry
  | .add metric value => CurrentMetrics.add values metric value
  | .sub metric value => CurrentMetrics.sub values metric value

/-- Performing a list of calls one after the other, stopping at the first
fault. -/
def runCalls (values : Registry) : List Call → Except Fault Registry
  | [] => .ok values
  | call :: calls =>
    match call.exec values with
    | .error e => .error e
    | .ok values1 => runCalls values1 calls

/-- The difference a call applies to slot `slot`: its `delta` when it is
addressed to that slot, zero otherwise. -/
def Call.deltaAt (slot : Nat) (call : Call) : Int :=
  if call.metric.toNat = slot then call.delta else 0

/-- The sum of the differences that the calls of a list address to slot
`slot`. -/
def netDelta (slot : Nat) (calls : List Call) : Int :=
  (calls.map (Call.deltaAt slot)).sum

/-- Threads running in parallel: for each thread, the calls it still has to
make, in its program order. -/
abbrev Threads := List (List Call)

/-- A run of the threads under a schedule. Each `values[m] += value` on the
`std::atomic` slot is one indivisible read-modify-write, so a parallel run is
an interleaving of whole calls: at each tick the schedule names a thread,
which performs its next call; a tick that names a thread with nothing left
to do passes. Returns the table and what the threads still have to do. -/
def runSchedule (values : Registry) (threads : Threads) :
    List Nat → Except Fault (Registry × Threads)
  | [] => .ok (values, threads)
  | t :: schedule =>
    match threads[t]? with
    | some (call :: rest) =>
      match call.exec values with
      | .error e => .error e
      | .ok values1 => runSchedule values1 (threads.set t rest) schedule
    | some [] => runSchedule values threads schedule
    | none => runSchedule values threads schedule

/-- The program as one owner thread sees it: the table and the `Increment`
objects that are alive, addressed by their position. -/
structure State where
  values : Registry
  handles : List Increment
  deriving DecidableEq, Repr

/-- The state at process start: all gauges zero, no `Increment` object. -/
def State.initial : State := { values := initialValues, handles := [] }

/-- The member write `objects[i].what = what`. -/
def writeWhat (handles : List Increment) (i : Nat) (what : Option Nat) : List Increment :=
  match handles[i]? with
  | some h => handles.set i { h with what := what }
  | none => handles

/-- The member write `objects[i].amount = amount`. -/
def writeAmount (handles : List Increment) (i : Nat) (amount : Value) : List Increment :=
  match handles[i]? with
  | some h => handles.set i { h with amount := amount }
  | none => handles

/-- The move assignment `objects[self] = std::move(objects[old])`, statement
by statement on the stored objects: `what = old.what; amount = old.amount;
old.what = nullptr;`. The two positions may name one and the same object.
There is no result when a position names no object. -/
def moveAssignAt (handles : List Increment) (self old : Nat) : Option (List Increment) :=
  match handles[self]?, handles[old]? with
  | some _, some o =>
    let handles1 := writeWhat handles self o.what
    match handles1[old]? with
    | some o1 =>
      let handles2 := writeAmount handles1 self o1.amount
      some (writeWhat handles2 old none)
    | none => none
  | _, _ => none

/-- A step of the owner thread on the objects it holds. -/
inductive Op where
  | construct (metric : Metric) (amount : Value)
  | changeTo (i : Nat) (new_amount : Value)
  | destroy (i : Nat)
  | moveConstruct (i : Nat)
  | moveAssign (self old : Nat)
  | destruct (i : Nat)
  deriving DecidableEq, Repr

/-- Whether a step is a move assignment. -/
def Op.isMoveAssign : Op → Bool
  | .moveAssign _ _ => true
  | _ => false

/-- One step of the owner thread. A new object takes the next free position;
the destructor removes its object; a step that names no live object leaves
the state as it is. -/
def State.step (s : State) : Op → Except Fault State
  | .construct metric amount =>
    match Increment.ctor s.values metric amount with
    | .error e => .error e
    | .ok (values1, h) => .ok { values := values1, handles := s.handles ++ [h] }
  | .changeTo i new_amount =>
    match s.handles[i]? with
    | none => .ok s
    | some h =>
      match Increment.changeTo s.values h new_amount with
      | .error e => .error e
      | .ok (values1, h1) => .ok { values := values1, handles := s.handles.set i h1 }
  | .destroy i =>
    match s.handles[i]? with
    | none => .ok s
    | some h =>
      match Increment.destroy s.values h with
      | .error e => .error e
      | .ok (values1, h1) => .ok { values := values1, handles := s.handles.set i h1 }
  | .moveConstruct i =>
    match s.handles[i]? with
    | none => .ok s
    | some h =>
      .ok { values := s.values,
            handles := s.handles.set i (Increment.moveCtor h).2 ++ [(Increment.moveCtor h).1] }
  | .moveAssign self old =>
    match moveAssignAt s.handles self old with
    | none => .ok s
    | some handles1 => .ok { values := s.values, handles := handles1 }
  | .destruct i =>
    match s.handles[i]? with
    | none => .ok s
    | some h =>
      match Increment.dtor s.values h with
      | .error e => .error e
      | .ok values1 => .ok { values := values1, handles := s.handles.eraseIdx i }

/-- A sequence of steps of the owner thread, stopping at the first fault. -/
def State.run (s : State) : List Op → Except Fault State
  | [] => .ok s
  | op :: ops =>
    match s.step op with
    | .error e => .error e
    | .ok s1 => State.run s1 ops

/-- What a handle contributes to slot `slot`: its amount when it refers to
that slot, zero otherwise (an empty handle contributes to no slot). -/
def Increment.heldAt (slot : Nat) (self : Increment) : Int :=
  if self.what = some slot then self.amount else 0

/-- The sum of the stored amounts of the handles that refer to slot `slot`. -/
def heldAt (slot : Nat) (handles : List Increment) : Int :=
  (handles.map (Increment.heldAt slot)).sum

/-- Every slot holds, modulo `2^64`, the sum of the amounts of the live
handles that refer to it, in a table of `END` slots of `int64_t`. -/
def State.accounted (s : State) : Prop :=
  s.values.wf ∧ ∀ (slot : Nat) (v : Value), s.values[slot]? = some v →
    v = wrap64 (heldAt slot s.handles)

/-- The table `r` has the slots of `values`, with the same content except
possibly at the slot of metric `m`. -/
def Registry.sameExcept (values r : Registry) (m : Metric) : Prop :=
  r.length = values.length ∧ ∀ m1 : Metric, m1 ≠ m → r[m1.toNat]? = values[m1.toNat]?

/-! ## Arithmetic of `wrap64` -/

theorem wrap64_isInt64 (x : Int) : isInt64 (wrap64 x) := by
  unfold isInt64 wrap64; omega

theorem wrap64_of_isInt64 {x : Int} (h : isInt64 x) : wrap64 x = x := by
  unfold isInt64 at h; unfold wrap64; omega

theorem wrap64_add_sub_cancel (v d : Int) : wrap64 (wrap64 (v + d) - d) = wrap64 v := by
  unfold wrap64; omega

theorem wrap64_add_neg_cancel (v d : Int) :
    wrap64 (wrap64 (v + d) + wrap64 (-d)) = wrap64 v := by
  unfold wrap64; omega

theorem wrap64_add_wrap64 (v a b : Int) : wrap64 (wrap64 (v + a) + b) = wrap64 (v + a + b) := by
  unfold wrap64; omega

theorem wrap64_rebase (v a b : Int) :
    wrap64 (wrap64 (v + a) + wrap64 (b - a)) = wrap64 (v + b) := by
  unfold wrap64; omega

theorem wrap64_wrap64_add (x d : Int) : wrap64 (wrap64 x + d) = wrap64 (x + d) := by
  unfold wrap64; omega

theorem wrap64_add_then_sub (v a b : Int) :
    wrap64 (wrap64 (v + a) + wrap64 (-b)) = wrap64 (v + a - b) := by
  unfold wrap64; omega

theorem wrap64_drop_first (v a b : Int) : wrap64 (wrap64 (v + a + b) - a) = wrap64 (v + b) := by
  unfold wrap64; omega

theorem wrap64_drop_second (v a b : Int) : wrap64 (wrap64 (v + a + b) - b) = wrap64 (v + a) := by
  unfold wrap64; omega

/-! ## Slots of the table -/

theorem getElem?_lt {values : Registry} {slot : Nat} {v : Value}
    (h : values[slot]? = some v) : slot < values.length :=
  (List.getElem?_eq_some_iff.mp h).1

theorem getElem_of_getElem? {values : Registry} {slot : Nat} {v : Value}
    (h : values[slot]? = some v) (hlt : slot < values.length) : values[slot] = v := by
  obtain ⟨_, h2⟩ := List.getElem?_eq_some_iff.mp h
  exact h2

theorem set_same {values : Registry} {slot : Nat} {v : Value}
    (h : values[slot]? = some v) : values.set slot v = values := by
  apply List.ext_getElem?
  intro n
  rw [List.getElem?_set]
  split
  · next heq =>
      subst heq
      simp [getElem?_lt h, h]
  · rfl

theorem getElem?_set_same {values : Registry} {slot : Nat} {v : Value} (w : Value)
    (h : values[slot]? = some v) : (values.set slot w)[slot]? = some w := by
  simp [getElem?_lt h]

theorem wf_getElem? {values : Registry} (hwf : values.wf) {slot : Nat} (hs : slot < END) :
    ∃ v, values[slot]? = some v ∧ isInt64 v := by
  have hlt : slot < values.length := by rw [hwf.1]; exact hs
  exact ⟨values[slot], by simp [hlt], hwf.2 _ (List.getElem_mem hlt)⟩

theorem load_of_get {values : Registry} {slot : Nat} {v : Value}
    (h : values[slot]? = some v) : load values slot = .ok v := by
  have hlt := getElem?_lt h
  simp [load, hlt, getElem_of_getElem? h hlt]

theorem store_of_get {values : Registry} {slot : Nat} {v : Value} (w : Value)
    (h : values[slot]? = some v) : store values slot w = .ok (values.set slot w) := by
  simp [store, getElem?_lt h]

theorem fetchAdd_of_get {values : Registry} {slot : Nat} {v : Value} (d : Value)
    (h : values[slot]? = some v) :
    fetchAdd values slot d = .ok (values.set slot (wrap64 (v + d))) := by
  have hlt := getElem?_lt h
  simp [fetchAdd, hlt, getElem_of_getElem? h hlt]

theorem fetchSub_of_get {values : Registry} {slot : Nat} {v : Value} (d : Value)
    (h : values[slot]? = some v) :
    fetchSub values slot d = .ok (values.set slot (wrap64 (v - d))) := by
  have hlt := getElem?_lt h
  simp [fetchSub, hlt, getElem_of_getElem? h hlt]

/-! ## The operations on a slot that is present -/

theorem ctor_of_get {values : Registry} {m : Metric} {v : Value} (k : Value)
    (h : values[m.toNat]? = some v) :
    Increment.ctor values m k
      = .ok (values.set m.toNat (wrap64 (v + k)), { what := some m.toNat, amount := k }) := by
  simp [Increment.ctor, Increment.ctorAt, derefAdd, fetchAdd_of_get k h]

theorem dtor_of_get {values : Registry} {slot : Nat} {v : Value} (k : Value)
    (h : values[slot]? = some v) :
    Increment.dtor values { what := some slot, amount := k }
      = .ok (values.set slot (wrap64 (v - k))) := by
  simp [Increment.dtor, fetchSub_of_get k h]

theorem dtor_empty (values : Registry) (k : Value) :
    Increment.dtor values { what := none, amount := k } = .ok values := rfl

theorem destroy_of_get {values : Registry} {slot : Nat} {v : Value} (k : Value)
    (h : values[slot]? = some v) :
    Increment.destroy values { what := some slot, amount := k }
      = .ok (values.set slot (wrap64 (v - k)), { what := none, amount := k }) := by
  simp [Increment.destroy, derefSub, fetchSub_of_get k h]

theorem changeTo_of_get {values : Registry} {slot : Nat} {v : Value} (k n : Value)
    (h : values[slot]? = some v) :
    Increment.changeTo values { what := some slot, amount := k } n
      = .ok (values.set slot (wrap64 (v + wrap64 (n - k))), { what := some slot, amount := n }) := by
  simp [Increment.changeTo, derefAdd, fetchAdd_of_get _ h]

/-- Undoing an addition on a slot holding an `int64_t` gives the table back. -/
theorem set_add_sub_restore {values : Registry} {slot : Nat} {v : Value} (k : Value)
    (h : values[slot]? = some v) (hv : isInt64 v) :
    (values.set slot (wrap64 (v + k))).set slot (wrap64 (wrap64 (v + k) - k)) = values := by
  rw [List.set_set, wrap64_add_sub_cancel, wrap64_of_isInt64 hv, set_same h]

/-- Re-basing a handle on a present slot through a list of amounts leaves the
slot at its base value plus the last amount, and that amount in the handle. -/
theorem changeToAll_of_get {values : Registry} {slot : Nat} {v : Value} (ks : List Value)
    (k : Value) (h : values[slot]? = some v) :
    Increment.changeToAll (values.set slot (wrap64 (v + k))) { what := some slot, amount := k } ks
      = .ok (values.set slot (wrap64 (v + ks.getLastD k)),
             { what := some slot, amount := ks.getLastD k }) := by
  induction ks generalizing k with
  | nil => rfl
  | cons n ks ih =>
    have step := changeTo_of_get k n (getElem?_set_same (wrap64 (v + k)) h)
    rw [List.set_set, wrap64_rebase] at step
    simp only [Increment.changeToAll, step, List.getLastD_cons]
    exact ih n

theorem add_of_get {values : Registry} {m : Metric} {v : Value} (d : Value)
    (h : values[m.toNat]? = some v) :
    add values m d = .ok (values.set m.toNat (wrap64 (v + d))) :=
  fetchAdd_of_get d h

theorem sub_of_get {values : Registry} {m : Metric} {v : Value} (d : Value)
    (h : values[m.toNat]? = some v) :
    sub values m d = .ok (values.set m.toNat (wrap64 (v + wrap64 (-d)))) :=
  fetchAdd_of_get _ h

/-- Repeating `add(m, d)` on a present slot: `n` calls add `n * d`. -/
theorem repeatCalls_add {values : Registry} {m : Metric} {v : Value} (d x : Value) (n : Nat)
    (h : values[m.toNat]? = some v) :
    repeatCalls (fun r => add r m d) n (values.set m.toNat (wrap64 x))
      = .ok (values.set m.toNat (wrap64 (x + n * d))) := by
  induction n generalizing x with
  | zero => simp [repeatCalls]
  | succ n ih =>
    have step := add_of_get d (getElem?_set_same (wrap64 x) h)
    rw [List.set_set, wrap64_wrap64_add] at step
    simp only [repeatCalls, step]
    rw [ih (x + d)]
    congr 3
    push_cast
    ring

theorem fetchAdd_inv {values values1 : Registry} {slot : Nat} {d : Value}
    (h : fetchAdd values slot d = .ok values1) :
    slot < values.length ∧ values1.length = values.length := by
  unfold fetchAdd at h
  split at h
  · next hlt =>
      injection h with h
      subst h
      exact ⟨hlt, by simp⟩
  · simp at h

theorem fetchSub_inv {values values1 : Registry} {slot : Nat} {d : Value}
    (h : fetchSub values slot d = .ok values1) :
    slot < values.length ∧ values1.length = values.length := by
  unfold fetchSub at h
  split at h
  · next hlt =>
      injection h with h
      subst h
      exact ⟨hlt, by simp⟩
  · simp at h

theorem fetchAdd_total {values : Registry} {slot : Nat} (d : Value) (h : slot < values.length) :
    ∃ values1, fetchAdd values slot d = .ok values1 := by
  simp [fetchAdd, h]

theorem fetchSub_total {values : Registry} {slot : Nat} (d : Value) (h : slot < values.length) :
    ∃ values1, fetchSub values slot d = .ok values1 := by
  simp [fetchSub, h]

theorem ctor_inv {values values1 : Registry} {m : Metric} {k : Value} {h1 : Increment}
    (h : Increment.ctor values m k = .ok (values1, h1)) :
    values1.length = values.length ∧ h1.inTable values1 := by
  simp only [Increment.ctor, Increment.ctorAt, derefAdd] at h
  split at h
  · simp at h
  · next r heq =>
      obtain ⟨hlt, hlen⟩ := fetchAdd_inv heq
      injection h with h
      injection h with ha hb
      subst ha hb
      refine ⟨hlen, ?_⟩
      intro slot hs
      injection hs with hs
      rw [hlen, ← hs]
      exact hlt

theorem step_inv {values values1 : Registry} {h h1 : Increment} {op : HandleOp}
    (hin : h.inTable values) (hstep : Increment.step values h op = .ok (values1, h1)) :
    values1.length = values.length ∧ h1.inTable values1 := by
  cases op with
  | changeTo n =>
    simp only [Increment.step, Increment.changeTo] at hstep
    split at hstep
    · simp at hstep
    · next r heq =>
        injection hstep with hstep
        injection hstep with ha hb
        subst ha hb
        cases hw : h.what with
        | none => rw [hw] at heq; simp [derefAdd] at heq
        | some slot =>
          rw [hw] at heq
          obtain ⟨_, hlen⟩ := fetchAdd_inv heq
          refine ⟨hlen, ?_⟩
          intro s hs
          rw [hlen]
          exact hin s (hw.trans hs)
  | destroy =>
    simp only [Increment.step, Increment.destroy] at hstep
    split at hstep
    · simp at hstep
    · next r heq =>
        injection hstep with hstep
        injection hstep with ha hb
        subst ha hb
        cases hw : h.what with
        | none => rw [hw] at heq; simp [derefSub] at heq
        | some slot =>
          rw [hw] at heq
          obtain ⟨_, hlen⟩ := fetchSub_inv heq
          refine ⟨hlen, ?_⟩
          intro s hs
          simp at hs
  | moveTo =>
    simp only [Increment.step] at hstep
    injection hstep with hstep
    injection hstep with ha hb
    subst ha hb
    exact ⟨rfl, fun s hs => hin s hs⟩
  | moveFrom =>
    simp only [Increment.step] at hstep
    injection hstep with hstep
    injection hstep with ha hb
    subst ha hb
    refine ⟨rfl, ?_⟩
    intro s hs
    simp [Increment.moveCtor, Increment.moveAssign] at hs

theorem run_inv {values values1 : Registry} {h h1 : Increment} (ops : List HandleOp)
    (hin : h.inTable values) (hrun : Increment.run values h ops = .ok (values1, h1)) :
    values1.length = values.length ∧ h1.inTable values1 := by
  induction ops generalizing values h with
  | nil =>
    simp only [Increment.run] at hrun
    injection hrun with hrun
    injection hrun with ha hb
    subst ha hb
    exact ⟨rfl, hin⟩
  | cons op ops ih =>
    simp only [Increment.run] at hrun
    split at hrun
    · simp at hrun
    · next r2 h2 heq =>
        obtain ⟨hlen, hin2⟩ := step_inv hin heq
        obtain ⟨hlen1, hin1⟩ := ih hin2 hrun
        exact ⟨hlen1.trans hlen, hin1⟩

theorem ctorThenRun_inv {values values1 : Registry} {m : Metric} {k : Value} {h1 : Increment}
    (ops : List HandleOp) (hrun : Increment.ctorThenRun values m k ops = .ok (values1, h1)) :
    values1.length = values.length ∧ h1.inTable values1 := by
  simp only [Increment.ctorThenRun] at hrun
  split at hrun
  · simp at hrun
  · next r2 h2 heq =>
      obtain ⟨hlen, hin2⟩ := ctor_inv heq
      obtain ⟨hlen1, hin1⟩ := run_inv ops hin2 hrun
      exact ⟨hlen1.trans hlen, hin1⟩

theorem repeatCalls_add_from {values : Registry} {m : Metric} {v : Value} (d : Value) (n : Nat)
    (h : values[m.toNat]? = some v) (hr : isInt64 v) :
    repeatCalls (fun r => add r m d) n values
      = .ok (values.set m.toNat (wrap64 (v + n * d))) := by
  have t := repeatCalls_add d v n h
  rwa [wrap64_of_isInt64 hr, set_same h] at t

theorem wrap64_neg_one : wrap64 (-1) = -1 := by decide

/-! ## The catalog -/

theorem toNat_injective (m m1 : Metric) (h : m.toNat = m1.toNat) : m = m1 := by
  cases m <;> cases m1 <;> first | rfl | (exact absurd h (by decide))

/-! ## Lists of calls -/

theorem wrap64_add_wrap64_neg (v d x : Int) :
    wrap64 (wrap64 (v + wrap64 (-d)) + x) = wrap64 (v + -d + x) := by
  unfold wrap64; omega

theorem wf_isInt64_of_get {values : Registry} (hwf : values.wf) {slot : Nat} {v : Value}
    (hv : values[slot]? = some v) : isInt64 v := by
  have hlt := getElem?_lt hv
  rw [← getElem_of_getElem? hv hlt]
  exact hwf.2 _ (List.getElem_mem hlt)

theorem wf_set {values : Registry} (hwf : values.wf) (slot : Nat) {x : Value}
    (hx : isInt64 x) : Registry.wf (values.set slot x) := by
  refine ⟨by rw [List.length_set]; exact hwf.1, ?_⟩
  intro v hv
  rcases List.mem_or_eq_of_mem_set hv with h | h
  · exact hwf.2 v h
  · rw [h]; exact hx

theorem netDelta_nil (slot : Nat) : netDelta slot [] = 0 := rfl

theorem netDelta_cons (slot : Nat) (call : Call) (calls : List Call) :
    netDelta slot (call :: calls) = call.deltaAt slot + netDelta slot calls := by
  simp [netDelta]

theorem netDelta_perm (slot : Nat) {calls calls1 : List Call} (h : calls1.Perm calls) :
    netDelta slot calls1 = netDelta slot calls :=
  (h.map (Call.deltaAt slot)).sum_eq

/-- A call addressed to a present slot succeeds; the slot then holds an
`int64_t` that is the old value plus the difference of the call, modulo
`2^64`. -/
theorem exec_of_get {values : Registry} (call : Call) {v : Value}
    (hv : values[call.metric.toNat]? = some v) :
    ∃ w, call.exec values = .ok (values.set call.metric.toNat w) ∧ isInt64 w
      ∧ ∀ x, wrap64 (w + x) = wrap64 (v + call.delta + x) := by
  cases call with
  | add metric value =>
    exact ⟨_, add_of_get value hv, wrap64_isInt64 _, fun x => wrap64_add_wrap64 v value x⟩
  | sub metric value =>
    exact ⟨_, sub_of_get value hv, wrap64_isInt64 _, fun x => wrap64_add_wrap64_neg v value x⟩

/-- A list of calls on valid metrics succeeds on a table of `END` slots of
`int64_t`; every slot ends at its prior value plus the differences addressed
to it, modulo `2^64`. -/
theorem runCalls_spec (calls : List Call) (values : Registry) (hwf : values.wf)
    (hvalid : ∀ c ∈ calls, c.metric.valid) :
    ∃ final, runCalls values calls = .ok final ∧ final.wf
      ∧ ∀ slot v, values[slot]? = some v →
          final[slot]? = some (wrap64 (v + netDelta slot calls)) := by
  induction calls generalizing values with
  | nil =>
    refine ⟨values, rfl, hwf, ?_⟩
    intro slot v hv
    rw [netDelta_nil, Int.add_zero, wrap64_of_isInt64 (wf_isInt64_of_get hwf hv)]
    exact hv
  | cons call calls ih =>
    obtain ⟨vs, hvs, _⟩ := wf_getElem? hwf (hvalid call (List.mem_cons_self _ _))
    obtain ⟨w, hexec, hw, hcong⟩ := exec_of_get call hvs
    obtain ⟨final, hrun, hfwf, hslots⟩ :=
      ih (values.set call.metric.toNat w) (wf_set hwf _ hw)
        (fun c hc => hvalid c (List.mem_cons_of_mem _ hc))
    refine ⟨final, by simp only [runCalls, hexec, hrun], hfwf, ?_⟩
    intro slot v hv
    rw [netDelta_cons]
    by_cases hs : call.metric.toNat = slot
    · subst hs
      rw [hvs] at hv
      injection hv with hv
      subst hv
      rw [hslots _ w (getElem?_set_same w hvs), hcong]
      simp [Call.deltaAt, Int.add_assoc]
    · have h1 : (values.set call.metric.toNat w)[slot]? = some v := by
        rw [List.getElem?_set_ne hs]; exact hv
      rw [hslots slot v h1]
      simp [Call.deltaAt, hs]

/-- Two tables of the same length that agree on every slot present in a
third table of that length are equal. -/
theorem registry_ext {values final final1 : Registry} (hlen : final.length = values.length)
    (hlen1 : final1.length = values.length)
    (h : ∀ (slot : Nat) (v : Value), values[slot]? = some v → final1[slot]? = final[slot]?) :
    final1 = final := by
  apply List.ext_getElem?
  intro n
  by_cases hn : n < values.length
  · exact h n values[n] (by simp [hn])
  · have a : final1.length ≤ n := by omega
    have b : final.length ≤ n := by omega
    rw [List.getElem?_eq_none a, List.getElem?_eq_none b]

/-! ## Interleavings -/

theorem flatten_set_perm {threads : Threads} {t : Nat} {call : Call} {rest : List Call}
    (h : threads[t]? = some (call :: rest)) :
    threads.flatten.Perm (call :: (threads.set t rest).flatten) := by
  induction threads generalizing t with
  | nil => simp at h
  | cons x xs ih =>
    cases t with
    | zero =>
      simp only [List.getElem?_cons_zero, Option.some.injEq] at h
      subst h
      simp
    | succ t =>
      simp only [List.getElem?_cons_succ] at h
      simp only [List.set_cons_succ, List.flatten_cons]
      exact ((ih h).append_left x).trans List.perm_middle

theorem wrap64_sub_self (v n : Int) (hv : isInt64 v) : wrap64 (v + n - n) = v := by
  unfold isInt64 at hv; unfold wrap64; omega

/-- Threads making calls on valid metrics never fault, under any schedule, on
a table of `END` slots of `int64_t`; every slot then holds its prior value
plus the differences of the calls made to it so far, modulo `2^64`. -/
theorem runSchedule_spec (schedule : List Nat) (values : Registry) (threads : Threads)
    (hwf : values.wf) (hvalid : ∀ c ∈ threads.flatten, c.metric.valid) :
    ∃ values1 threads1, runSchedule values threads schedule = .ok (values1, threads1)
      ∧ values1.wf
      ∧ ∀ slot v, values[slot]? = some v →
          values1[slot]? = some (wrap64 (v + netDelta slot threads.flatten
            - netDelta slot threads1.flatten)) := by
  induction schedule generalizing values threads with
  | nil =>
    refine ⟨values, threads, rfl, hwf, ?_⟩
    intro slot v hv
    rw [wrap64_sub_self v _ (wf_isInt64_of_get hwf hv)]
    exact hv
  | cons t schedule ih =>
    cases ht : threads[t]? with
    | none =>
      obtain ⟨values1, threads1, hrun, hw, hs⟩ := ih values threads hwf hvalid
      exact ⟨values1, threads1, by simp only [runSchedule, ht, hrun], hw, hs⟩
    | some l =>
      cases l with
      | nil =>
        obtain ⟨values1, threads1, hrun, hw, hs⟩ := ih values threads hwf hvalid
        exact ⟨values1, threads1, by simp only [runSchedule, ht, hrun], hw, hs⟩
      | cons call rest =>
        have hperm := flatten_set_perm ht
        have hcall : call.metric.valid :=
          hvalid call ((hperm.mem_iff).mpr (List.mem_cons_self _ _))
        obtain ⟨vs, hvs, _⟩ := wf_getElem? hwf hcall
        obtain ⟨w, hexec, hw, hcong⟩ := exec_of_get call hvs
        obtain ⟨values1, threads1, hrun, hw1, hs⟩ :=
          ih (values.set call.metric.toNat w) (threads.set t rest) (wf_set hwf _ hw)
            (fun c hc => hvalid c ((hperm.mem_iff).mpr (List.mem_cons_of_mem _ hc)))
        refine ⟨values1, threads1, by simp only [runSchedule, ht, hexec, hrun], hw1, ?_⟩
        intro slot v hv
        rw [netDelta_perm slot hperm, netDelta_cons]
        by_cases hslot : call.metric.toNat = slot
        · subst hslot
          rw [hvs] at hv
          injection hv with hv
          subst hv
          rw [hs _ w (getElem?_set_same w hvs), Int.add_sub_assoc, hcong]
          congr 2
          simp only [Call.deltaAt, if_true]
          ring
        · have h1 : (values.set call.metric.toNat w)[slot]? = some v := by
            rw [List.getElem?_set_ne hslot]; exact hv
          rw [hs slot v h1]
          simp [Call.deltaAt, hslot]

theorem netDelta_add_sub_replicate (slot : Nat) (m : Metric) (n : Nat) (d : Value) :
    netDelta slot (List.replicate n (Call.add m d) ++ List.replicate n (Call.sub m d)) = 0 := by
  simp only [netDelta, List.map_append, List.map_replicate, List.sum_append, List.sum_replicate,
    Call.deltaAt, Call.metric, Call.delta]
  split <;> simp

/-! ## The objects of an owner thread -/

theorem wrap64_rebase_held (H n k : Int) :
    wrap64 (wrap64 H + wrap64 (n - k)) = wrap64 (H + (n - k)) := by
  unfold wrap64; omega

theorem wrap64_wrap64_sub (H k : Int) : wrap64 (wrap64 H - k) = wrap64 (H + -k) := by
  unfold wrap64; omega

theorem fetchAdd_ok {values r : Registry} {slot : Nat} {d : Value}
    (h : fetchAdd values slot d = .ok r) :
    ∃ v, values[slot]? = some v ∧ r = values.set slot (wrap64 (v + d)) := by
  unfold fetchAdd at h
  split at h
  · next hlt =>
      injection h with h
      exact ⟨values[slot], by simp [hlt], h.symm⟩
  · simp at h

theorem fetchSub_ok {values r : Registry} {slot : Nat} {d : Value}
    (h : fetchSub values slot d = .ok r) :
    ∃ v, values[slot]? = some v ∧ r = values.set slot (wrap64 (v - d)) := by
  unfold fetchSub at h
  split at h
  · next hlt =>
      injection h with h
      exact ⟨values[slot], by simp [hlt], h.symm⟩
  · simp at h

theorem ctor_ok {values values1 : Registry} {m : Metric} {k : Value} {h : Increment}
    (hc : Increment.ctor values m k = .ok (values1, h)) :
    ∃ v, values[m.toNat]? = some v ∧ values1 = values.set m.toNat (wrap64 (v + k))
      ∧ h = { what := some m.toNat, amount := k } := by
  simp only [Increment.ctor, Increment.ctorAt, derefAdd] at hc
  split at hc
  · simp at hc
  · next r heq =>
      obtain ⟨v, hv, hr⟩ := fetchAdd_ok heq
      injection hc with hc
      injection hc with ha hb
      exact ⟨v, hv, ha ▸ hr, hb.symm⟩

theorem changeTo_ok {values values1 : Registry} {h h1 : Increment} {n : Value}
    (hc : Increment.changeTo values h n = .ok (values1, h1)) :
    ∃ s0 v, h.what = some s0 ∧ values[s0]? = some v
      ∧ values1 = values.set s0 (wrap64 (v + wrap64 (n - h.amount)))
      ∧ h1 = { what := some s0, amount := n } := by
  cases h with
  | mk what amount =>
    cases what with
    | none => simp [Increment.changeTo, derefAdd] at hc
    | some s0 =>
      simp only [Increment.changeTo, derefAdd] at hc
      split at hc
      · simp at hc
      · next r heq =>
          obtain ⟨v, hv, hr⟩ := fetchAdd_ok heq
          injection hc with hc
          injection hc with ha hb
          exact ⟨s0, v, rfl, hv, ha ▸ hr, hb.symm⟩

theorem destroy_ok {values values1 : Registry} {h h1 : Increment}
    (hc : Increment.destroy values h = .ok (values1, h1)) :
    ∃ s0 v, h.what = some s0 ∧ values[s0]? = some v
      ∧ values1 = values.set s0 (wrap64 (v - h.amount))
      ∧ h1 = { what := none, amount := h.amount } := by
  cases h with
  | mk what amount =>
    cases what with
    | none => simp [Increment.destroy, derefSub] at hc
    | some s0 =>
      simp only [Increment.destroy, derefSub] at hc
      split at hc
      · simp at hc
      · next r heq =>
          obtain ⟨v, hv, hr⟩ := fetchSub_ok heq
          injection hc with hc
          injection hc with ha hb
          exact ⟨s0, v, rfl, hv, ha ▸ hr, hb.symm⟩

theorem dtor_ok {values values1 : Registry} {h : Increment}
    (hc : Increment.dtor values h = .ok values1) :
    (h.what = none ∧ values1 = values)
      ∨ ∃ s0 v, h.what = some s0 ∧ values[s0]? = some v
          ∧ values1 = values.set s0 (wrap64 (v - h.amount)) := by
  cases h with
  | mk what amount =>
    cases what with
    | none =>
      simp only [Increment.dtor] at hc
      injection hc with hc
      exact Or.inl ⟨rfl, hc.symm⟩
    | some s0 =>
      simp only [Increment.dtor] at hc
      obtain ⟨v, hv, hr⟩ := fetchSub_ok hc
      exact Or.inr ⟨s0, v, rfl, hv, hr⟩

theorem heldAt_append (slot : Nat) (hs hs1 : List Increment) :
    heldAt slot (hs ++ hs1) = heldAt slot hs + heldAt slot hs1 := by
  simp [heldAt, List.sum_append]

theorem heldAt_single (slot : Nat) (h : Increment) : heldAt slot [h] = h.heldAt slot := by
  simp [heldAt]

theorem heldAt_set {hs : List Increment} {i : Nat} {h : Increment} (h1 : Increment)
    (slot : Nat) (hi : hs[i]? = some h) :
    heldAt slot (hs.set i h1) = heldAt slot hs - h.heldAt slot + h1.heldAt slot := by
  induction hs generalizing i with
  | nil => simp at hi
  | cons x xs ih =>
    cases i with
    | zero =>
      simp only [List.getElem?_cons_zero, Option.some.injEq] at hi
      subst hi
      simp only [heldAt, List.set_cons_zero, List.map_cons, List.sum_cons]
      omega
    | succ i =>
      simp only [List.getElem?_cons_succ] at hi
      have t := ih hi
      simp only [heldAt, List.set_cons_succ, List.map_cons, List.sum_cons] at t ⊢
      omega

theorem heldAt_eraseIdx {hs : List Increment} {i : Nat} {h : Increment}
    (slot : Nat) (hi : hs[i]? = some h) :
    heldAt slot (hs.eraseIdx i) = heldAt slot hs - h.heldAt slot := by
  induction hs generalizing i with
  | nil => simp at hi
  | cons x xs ih =>
    cases i with
    | zero =>
      simp only [List.getElem?_cons_zero, Option.some.injEq] at hi
      subst hi
      simp only [heldAt, List.eraseIdx_cons_zero, List.map_cons, List.sum_cons]
      omega
    | succ i =>
      simp only [List.getElem?_cons_succ] at hi
      have t := ih hi
      simp only [heldAt, List.eraseIdx_cons_succ, List.map_cons, List.sum_cons] at t ⊢
      omega

theorem heldAt_some (slot s0 : Nat) (k : Value) :
    Increment.heldAt slot { what := some s0, amount := k } = if s0 = slot then k else 0 := by
  simp [Increment.heldAt]

theorem heldAt_none (slot : Nat) (k : Value) :
    Increment.heldAt slot { what := none, amount := k } = 0 := by
  simp [Increment.heldAt]

theorem accounted_initial : State.initial.accounted := by
  refine ⟨by decide, ?_⟩
  intro slot v hv
  have hlt := getElem?_lt hv
  have e := getElem_of_getElem? hv hlt
  simp only [State.initial, initialValues, List.getElem_replicate] at e
  rw [← e]
  rfl

/-- A write to one slot keeps the accounting when the sum of the amounts held
on that slot moves by the same difference, modulo `2^64`, and the sums on the
other slots stay. -/
theorem accounted_update {values : Registry} {hs hs1 : List Increment} {s0 : Nat}
    {v0 : Value} (w δ : Int) (hacc : State.accounted { values := values, handles := hs })
    (hv0 : values[s0]? = some v0)
    (hw : ∀ H, v0 = wrap64 H → w = wrap64 (H + δ))
    (hheld : ∀ slot, heldAt slot hs1 = heldAt slot hs + (if s0 = slot then δ else 0)) :
    State.accounted { values := values.set s0 w, handles := hs1 } := by
  have hw0 := hw _ (hacc.2 s0 v0 hv0)
  refine ⟨wf_set hacc.1 _ (hw0 ▸ wrap64_isInt64 _), ?_⟩
  intro slot v hv
  by_cases hs0 : s0 = slot
  · subst hs0
    have hv1 : (values.set s0 w)[s0]? = some v := hv
    rw [getElem?_set_same w hv0] at hv1
    injection hv1 with hv1
    show v = wrap64 (heldAt s0 hs1)
    rw [← hv1, hw0, hheld s0, if_pos rfl]
  · have hv1 : (values.set s0 w)[slot]? = some v := hv
    rw [List.getElem?_set_ne hs0] at hv1
    show v = wrap64 (heldAt slot hs1)
    rw [hheld slot, if_neg hs0, Int.add_zero]
    exact hacc.2 slot v hv1

theorem accounted_same {values : Registry} {hs hs1 : List Increment}
    (hacc : State.accounted { values := values, handles := hs })
    (hheld : ∀ slot, heldAt slot hs1 = heldAt slot hs) :
    State.accounted { values := values, handles := hs1 } := by
  refine ⟨hacc.1, ?_⟩
  intro slot v hv
  show v = wrap64 (heldAt slot hs1)
  rw [hheld slot]
  exact hacc.2 slot v hv

/-- Every step other than a move assignment keeps the accounting. -/
theorem step_accounted {s s1 : State} {op : Op} (hacc : s.accounted)
    (hop : op.isMoveAssign = false) (hstep : s.step op = .ok s1) : s1.accounted := by
  cases s with
  | mk values hs =>
    cases op with
    | construct m k =>
      simp only [State.step] at hstep
      split at hstep
      · simp at hstep
      · next values1 h heq =>
          injection hstep with hstep
          subst hstep
          obtain ⟨v, hv, hr, hh⟩ := ctor_ok heq
          subst hr hh
          refine accounted_update _ k hacc hv (fun H hH => ?_) (fun slot => ?_)
          · rw [hH, wrap64_wrap64_add]
          · rw [heldAt_append, heldAt_single, heldAt_some]
    | changeTo i n =>
      simp only [State.step] at hstep
      split at hstep
      · injection hstep with hstep
        subst hstep
        exact hacc
      · next h hi =>
          split at hstep
          · simp at hstep
          · next values1 h1 heq =>
              injection hstep with hstep
              subst hstep
              obtain ⟨s0, v, hw, hv, hr, hh⟩ := changeTo_ok heq
              subst hr hh
              refine accounted_update _ (n - h.amount) hacc hv (fun H hH => ?_) (fun slot => ?_)
              · rw [hH, wrap64_rebase_held]
              · rw [heldAt_set _ slot hi, heldAt_some]
                simp only [Increment.heldAt, hw, Option.some.injEq]
                split <;> omega
    | destroy i =>
      simp only [State.step] at hstep
      split at hstep
      · injection hstep with hstep
        subst hstep
        exact hacc
      · next h hi =>
          split at hstep
          · simp at hstep
          · next values1 h1 heq =>
              injection hstep with hstep
              subst hstep
              obtain ⟨s0, v, hw, hv, hr, hh⟩ := destroy_ok heq
              subst hr hh
              refine accounted_update _ (-h.amount) hacc hv (fun H hH => ?_) (fun slot => ?_)
              · rw [hH, wrap64_wrap64_sub]
              · rw [heldAt_set _ slot hi, heldAt_none]
                simp only [Increment.heldAt, hw, Option.some.injEq]
                split <;> omega
    | moveConstruct i =>
      simp only [State.step] at hstep
      split at hstep
      · injection hstep with hstep
        subst hstep
        exact hacc
      · next h hi =>
          injection hstep with hstep
          subst hstep
          refine accounted_same hacc (fun slot => ?_)
          rw [heldAt_append, heldAt_single, heldAt_set _ slot hi]
          have e1 : Increment.heldAt slot (Increment.moveCtor h).2 = 0 := by
            simp [Increment.moveCtor, Increment.moveAssign, Increment.heldAt]
          have e2 : Increment.heldAt slot (Increment.moveCtor h).1 = Increment.heldAt slot h := by
            simp [Increment.moveCtor, Increment.moveAssign, Increment.heldAt]
          rw [e1, e2]
          omega
    | moveAssign self old => simp [Op.isMoveAssign] at hop
    | destruct i =>
      simp only [State.step] at hstep
      split at hstep
      · injection hstep with hstep
        subst hstep
        exact hacc
      · next h hi =>
          split at hstep
          · simp at hstep
          · next values1 heq =>
              injection hstep with hstep
              subst hstep
              rcases dtor_ok heq with ⟨hw, hr⟩ | ⟨s0, v, hw, hv, hr⟩
              · subst hr
                refine accounted_same hacc (fun slot => ?_)
                rw [heldAt_eraseIdx slot hi]
                simp [Increment.heldAt, hw]
              · subst hr
                refine accounted_update _ (-h.amount) hacc hv (fun H hH => ?_) (fun slot => ?_)
                · rw [hH, wrap64_wrap64_sub]
                · rw [heldAt_eraseIdx slot hi]
                  simp only [Increment.heldAt, hw, Option.some.injEq]
                  split <;> omega

theorem run_accounted (ops : List Op) {s s1 : State} (hacc : s.accounted)
    (hops : ∀ op ∈ ops, op.isMoveAssign = false) (hrun : s.run ops = .ok s1) :
    s1.accounted := by
  induction ops generalizing s with
  | nil =>
    simp only [State.run] at hrun
    injection hrun with hrun
    exact hrun ▸ hacc
  | cons op ops ih =>
    simp only [State.run] at hrun
    split at hrun
    · simp at hrun
    · next s2 heq =>
        exact ih (step_accounted hacc (hops op (List.mem_cons_self _ _)) heq)
          (fun o ho => hops o (List.mem_cons_of_mem _ ho)) hrun

/-! ## Frames and move assignment -/

theorem sameExcept_set (values : Registry) (m : Metric) (w : Value) :
    values.sameExcept (values.set m.toNat w) m := by
  refine ⟨List.length_set _ _ _, ?_⟩
  intro m1 hne
  exact List.getElem?_set_ne (fun e => hne (toNat_injective m1 m e.symm))

theorem eraseIdx_set_same (hs : List Increment) (i : Nat) (h : Increment) :
    (hs.set i h).eraseIdx i = hs.eraseIdx i := by
  induction hs generalizing i with
  | nil => rfl
  | cons x xs ih =>
    cases i with
    | zero => rfl
    | succ i => simp only [List.set_cons_succ, List.eraseIdx_cons_succ, ih]

/-- Move assignment of an object to itself: the two copies change nothing and
the last statement nulls `what`. -/
theorem moveAssignAt_self {hs : List Increment} {i : Nat} {h : Increment}
    (hi : hs[i]? = some h) :
    moveAssignAt hs i i = some (hs.set i { what := none, amount := h.amount }) := by
  have hlt : i < hs.length := (List.getElem?_eq_some_iff.mp hi).1
  simp [moveAssignAt, writeWhat, writeAmount, hi, hlt]

/-- Move assignment between two distinct objects is the assignment of
`Increment.moveAssign` on the two of them. -/
theorem moveAssignAt_distinct {hs : List Increment} {self old : Nat} {a b : Increment}
    (hne : self ≠ old) (ha : hs[self]? = some a) (hb : hs[old]? = some b) :
    moveAssignAt hs self old
      = some ((hs.set self (Increment.moveAssign a b).1).set old (Increment.moveAssign a b).2) := by
  have hlt : self < hs.length := (List.getElem?_eq_some_iff.mp ha).1
  have hlt1 : old < hs.length := (List.getElem?_eq_some_iff.mp hb).1
  have hb1 : hs[old] = b := (List.getElem?_eq_some_iff.mp hb).2
  simp [moveAssignAt, writeWhat, writeAmount, ha, hb, hb1, hlt, hlt1, hne, Ne.symm hne,
    List.getElem?_set, Increment.moveAssign]

/-! ## Claims -/

/-- C1. For a table of `END` slots holding `int64_t` values, a valid metric
`m` and any amount `k`, the constructor `Increment(m, k)` succeeds with a
handle on slot `m`, and the destructor run on the result gives back the
table as it was before the construction, every slot included. -/
theorem ctor_dtor_restores (values : Registry) (m : Metric) (k : Value)
    (hwf : values.wf) (hm : m.valid) :
    ∃ values1 h, Increment.ctor values m k = .ok (values1, h)
      ∧ h = { what := some m.toNat, amount := k }
      ∧ Increment.dtor values1 h = .ok values := by
  obtain ⟨v, hv, hr⟩ := wf_getElem? hwf hm
  refine ⟨_, _, ctor_of_get k hv, rfl, ?_⟩
  rw [dtor_of_get k (getElem?_set_same _ hv), set_add_sub_restore k hv hr]

theorem ctor_dtor_restores_witness :
    initialValues.wf ∧ Metric.Query.valid ∧
    ∃ values1 h, Increment.ctor initialValues .Query 7 = .ok (values1, h)
      ∧ h = { what := some Metric.Query.toNat, amount := 7 }
      ∧ Increment.dtor values1 h = .ok initialValues :=
  ⟨by decide, by decide, ctor_dtor_restores initialValues .Query 7 (by decide) (by decide)⟩

/-- C2. For a handle that holds a reference to a slot present in the table,
with value `v` there: `destroy()` succeeds, leaves the slot at `v - amount`
(in `int64_t`), every other slot as it was, and the handle empty; the
destructor run afterwards succeeds and returns the table unchanged, so the
amount is subtracted exactly once. -/
theorem destroy_then_dtor_once (values : Registry) (slot : Nat) (k v : Value)
    (hv : values[slot]? = some v) :
    Increment.destroy values { what := some slot, amount := k }
        = .ok (values.set slot (wrap64 (v - k)), { what := none, amount := k })
      ∧ Increment.dtor (values.set slot (wrap64 (v - k))) { what := none, amount := k }
        = .ok (values.set slot (wrap64 (v - k))) :=
  ⟨destroy_of_get k hv, rfl⟩

theorem destroy_then_dtor_once_witness :
    initialValues[Metric.Merge.toNat]? = some 0 ∧
    Increment.destroy initialValues { what := some Metric.Merge.toNat, amount := 3 }
        = .ok (initialValues.set Metric.Merge.toNat (wrap64 (0 - 3)), { what := none, amount := 3 })
      ∧ Increment.dtor (initialValues.set Metric.Merge.toNat (wrap64 (0 - 3)))
          { what := none, amount := 3 }
        = .ok (initialValues.set Metric.Merge.toNat (wrap64 (0 - 3))) :=
  ⟨by decide, destroy_then_dtor_once initialValues Metric.Merge.toNat 3 0 (by decide)⟩

/-- C3 (as stated, refuted). After `Increment(Query, 1)` and a first
`destroy()` the handle is cleared; a second `destroy()` does not return the
table and the handle unchanged but dereferences the null `what`. The same
happens on a handle cleared by a move. -/
theorem destroy_twice_faults :
    Increment.ctor initialValues .Query 1
        = .ok (initialValues.set 0 1, { what := some 0, amount := 1 })
      ∧ Increment.destroy (initialValues.set 0 1) { what := some 0, amount := 1 }
        = .ok (initialValues, { what := none, amount := 1 })
      ∧ Increment.destroy initialValues { what := none, amount := 1 }
        = .error .nullDereference
      ∧ Increment.destroy (initialValues.set 0 1)
          (Increment.moveCtor { what := some 0, amount := 1 }).2
        = .error .nullDereference := by
  decide

/-- C3 (amended). On a handle that is already cleared, whatever the table and
the stored amount, `destroy()` dereferences the null `what` and returns
nothing, while the destructor returns the table unchanged: the operation that
is safe and a no-op on a cleared handle is the destructor, not `destroy()`. -/
theorem destroy_cleared_faults_dtor_noop (values : Registry) (h : Increment)
    (hnone : h.what = none) :
    Increment.destroy values h = .error .nullDereference
      ∧ Increment.dtor values h = .ok values := by
  cases h with
  | mk what amount =>
    simp only at hnone
    subst hnone
    exact ⟨rfl, rfl⟩

theorem destroy_cleared_faults_dtor_noop_witness :
    ({ what := none, amount := 5 } : Increment).what = none
      ∧ Increment.destroy initialValues { what := none, amount := 5 } = .error .nullDereference
      ∧ Increment.dtor initialValues { what := none, amount := 5 } = .ok initialValues :=
  ⟨rfl, destroy_cleared_faults_dtor_noop initialValues { what := none, amount := 5 } rfl⟩

/-- C4. Let `A` hold slot `s` with amount `k`, the slot being present with
value `v`. Move-constructing `B` from `A` gives `B` the slot `s` and the
amount `k` and leaves `A` with a null `what`; the destructor of `A` returns
the table unchanged; the destructors of `A` and `B`, in either order, leave
slot `s` at `v - k` and the rest as it was. Whenever `A` is the handle that
`Increment(m, k)` constructed from a table `values0` of `END` slots holding
`int64_t` values, that final table is `values0`. -/
theorem moveCtor_transfers_once (values : Registry) (s : Nat) (k v : Value)
    (hv : values[s]? = some v) :
    Increment.moveCtor { what := some s, amount := k }
        = ({ what := some s, amount := k }, { what := none, amount := k })
      ∧ Increment.dtor values (Increment.moveCtor { what := some s, amount := k }).2
        = .ok values
      ∧ Increment.dtor values (Increment.moveCtor { what := some s, amount := k }).1
        = .ok (values.set s (wrap64 (v - k)))
      ∧ Increment.dtor (values.set s (wrap64 (v - k)))
          (Increment.moveCtor { what := some s, amount := k }).2
        = .ok (values.set s (wrap64 (v - k)))
      ∧ ∀ (values0 : Registry) (m : Metric), values0.wf →
          Increment.ctor values0 m k = .ok (values, { what := some s, amount := k }) →
          values.set s (wrap64 (v - k)) = values0 := by
  refine ⟨rfl, rfl, dtor_of_get k hv, rfl, ?_⟩
  intro values0 m hwf hctor
  by_cases hlt : m.toNat < values0.length
  · have hs0 : values0[m.toNat]? = some values0[m.toNat] := by simp [hlt]
    rw [ctor_of_get k hs0] at hctor
    injection hctor with hctor
    injection hctor with h1 h2
    injection h2 with h3
    injection h3 with h3
    subst h3
    subst h1
    rw [getElem?_set_same _ hs0] at hv
    injection hv with hv
    rw [← hv, List.set_set, wrap64_add_sub_cancel,
      wrap64_of_isInt64 (hwf.2 _ (List.getElem_mem hlt)), set_same hs0]
  · simp [Increment.ctor, Increment.ctorAt, derefAdd, fetchAdd, hlt] at hctor

theorem moveCtor_transfers_once_witness :
    (initialValues.set 1 4)[1]? = some 4
      ∧ Increment.moveCtor { what := some 1, amount := 4 }
        = ({ what := some 1, amount := 4 }, { what := none, amount := 4 })
      ∧ Increment.dtor (initialValues.set 1 4)
          (Increment.moveCtor { what := some 1, amount := 4 }).2
        = .ok (initialValues.set 1 4)
      ∧ Increment.dtor (initialValues.set 1 4)
          (Increment.moveCtor { what := some 1, amount := 4 }).1
        = .ok ((initialValues.set 1 4).set 1 (wrap64 (4 - 4)))
      ∧ Increment.dtor ((initialValues.set 1 4).set 1 (wrap64 (4 - 4)))
          (Increment.moveCtor { what := some 1, amount := 4 }).2
        = .ok ((initialValues.set 1 4).set 1 (wrap64 (4 - 4)))
      ∧ initialValues.wf
      ∧ Increment.ctor initialValues .Merge 4
        = .ok (initialValues.set 1 4, { what := some 1, amount := 4 })
      ∧ (initialValues.set 1 4).set 1 (wrap64 (4 - 4)) = initialValues :=
  have t := moveCtor_transfers_once (initialValues.set 1 4) 1 4 4 (by decide)
  ⟨by decide, t.1, t.2.1, t.2.2.1, t.2.2.2.1, by decide, by decide,
    t.2.2.2.2 initialValues .Merge (by decide) (by decide)⟩

/-- C5. In a table of `END` slots holding `int64_t` values, with slot `m`
present at value `v`: `Increment(m, k0)` followed by `changeTo(k1)`, ...,
`changeTo(kn)` succeeds, leaves slot `m` at `v + kn` (in `int64_t`; `k0`
when the sequence is empty), the other slots as they were, and `kn` as the
stored amount; the destructor then gives back the table as it was before the
construction. -/
theorem changeTo_sequence_net (values : Registry) (m : Metric) (k0 : Value) (ks : List Value)
    (v : Value) (hwf : values.wf) (hv : values[m.toNat]? = some v) :
    Increment.ctor values m k0
        = .ok (values.set m.toNat (wrap64 (v + k0)), { what := some m.toNat, amount := k0 })
      ∧ Increment.changeToAll (values.set m.toNat (wrap64 (v + k0)))
          { what := some m.toNat, amount := k0 } ks
        = .ok (values.set m.toNat (wrap64 (v + ks.getLastD k0)),
               { what := some m.toNat, amount := ks.getLastD k0 })
      ∧ Increment.dtor (values.set m.toNat (wrap64 (v + ks.getLastD k0)))
          { what := some m.toNat, amount := ks.getLastD k0 }
        = .ok values := by
  have hr : isInt64 v := by
    have hlt := getElem?_lt hv
    rw [← getElem_of_getElem? hv hlt]
    exact hwf.2 _ (List.getElem_mem hlt)
  refine ⟨ctor_of_get k0 hv, changeToAll_of_get ks k0 hv, ?_⟩
  rw [dtor_of_get _ (getElem?_set_same _ hv), set_add_sub_restore _ hv hr]

theorem changeTo_sequence_net_witness :
    initialValues.wf ∧ initialValues[Metric.MarkCacheBytes.toNat]? = some 0
      ∧ Increment.ctor initialValues .MarkCacheBytes 10
        = .ok (initialValues.set Metric.MarkCacheBytes.toNat (wrap64 (0 + 10)),
               { what := some Metric.MarkCacheBytes.toNat, amount := 10 })
      ∧ Increment.changeToAll (initialValues.set Metric.MarkCacheBytes.toNat (wrap64 (0 + 10)))
          { what := some Metric.MarkCacheBytes.toNat, amount := 10 } [25, -3, 8]
        = .ok (initialValues.set Metric.MarkCacheBytes.toNat
                 (wrap64 (0 + [25, -3, 8].getLastD 10)),
               { what := some Metric.MarkCacheBytes.toNat, amount := [25, -3, 8].getLastD 10 })
      ∧ Increment.dtor (initialValues.set Metric.MarkCacheBytes.toNat
            (wrap64 (0 + [25, -3, 8].getLastD 10)))
          { what := some Metric.MarkCacheBytes.toNat, amount := [25, -3, 8].getLastD 10 }
        = .ok initialValues :=
  ⟨by decide, by decide,
    changeTo_sequence_net initialValues .MarkCacheBytes 10 [25, -3, 8] 0 (by decide) (by decide)⟩

/-- C6 (the code at the failing input). From the all-zero table, `B` is
constructed on `Query` with amount 1 and `A` on `Merge` with amount 1; after
`B = std::move(A)` handle `B` refers to `Merge` and `A` is empty; the
destructor of `A` changes nothing and the destructor of `B` sets `Merge` back
to 0; `Query` still reads 1, not its value 0 from before the construction. -/
theorem moveAssign_over_live_leaks :
    Increment.ctor initialValues .Query 1
        = .ok (initialValues.set 0 1, { what := some 0, amount := 1 })
      ∧ Increment.ctor (initialValues.set 0 1) .Merge 1
        = .ok ((initialValues.set 0 1).set 1 1, { what := some 1, amount := 1 })
      ∧ Increment.moveAssign { what := some 0, amount := 1 } { what := some 1, amount := 1 }
        = ({ what := some 1, amount := 1 }, { what := none, amount := 1 })
      ∧ Increment.dtor ((initialValues.set 0 1).set 1 1) { what := none, amount := 1 }
        = .ok ((initialValues.set 0 1).set 1 1)
      ∧ Increment.dtor ((initialValues.set 0 1).set 1 1) { what := some 1, amount := 1 }
        = .ok (initialValues.set 0 1)
      ∧ load (initialValues.set 0 1) Metric.Query.toNat = .ok 1
      ∧ load initialValues Metric.Query.toNat = .ok 0 := by
  decide

/-- C8. With slot `m` present in the table, whatever its prior value:
`set(m, v)` succeeds and leaves `v` in slot `m`; `add(m, a)` and then
`sub(m, b)` succeed and leave `v + a - b` (in `int64_t`) in slot `m`, which is
what a load then returns; the other slots are as they were. For 1000, 500 and
200 that value is 1300. -/
theorem set_add_sub_value (values : Registry) (m : Metric) (v a b v0 : Value)
    (hv0 : values[m.toNat]? = some v0) :
    set values m v = .ok (values.set m.toNat v)
      ∧ load (values.set m.toNat v) m.toNat = .ok v
      ∧ add (values.set m.toNat v) m a = .ok (values.set m.toNat (wrap64 (v + a)))
      ∧ sub (values.set m.toNat (wrap64 (v + a))) m b
        = .ok (values.set m.toNat (wrap64 (v + a - b)))
      ∧ load (values.set m.toNat (wrap64 (v + a - b))) m.toNat = .ok (wrap64 (v + a - b))
      ∧ wrap64 (1000 + 500 - 200) = 1300 := by
  refine ⟨store_of_get v hv0, load_of_get (getElem?_set_same v hv0), ?_, ?_,
    load_of_get (getElem?_set_same _ hv0), by decide⟩
  · rw [add_of_get a (getElem?_set_same v hv0), List.set_set]
  · rw [sub_of_get b (getElem?_set_same _ hv0), List.set_set, wrap64_add_then_sub]

theorem set_add_sub_value_witness :
    (initialValues.set 19 77)[Metric.MemoryTracking.toNat]? = some 77
      ∧ set (initialValues.set 19 77) .MemoryTracking 1000
        = .ok ((initialValues.set 19 77).set Metric.MemoryTracking.toNat 1000)
      ∧ load ((initialValues.set 19 77).set Metric.MemoryTracking.toNat 1000)
          Metric.MemoryTracking.toNat = .ok 1000
      ∧ add ((initialValues.set 19 77).set Metric.MemoryTracking.toNat 1000) .MemoryTracking 500
        = .ok ((initialValues.set 19 77).set Metric.MemoryTracking.toNat (wrap64 (1000 + 500)))
      ∧ sub ((initialValues.set 19 77).set Metric.MemoryTracking.toNat (wrap64 (1000 + 500)))
          .MemoryTracking 200
        = .ok ((initialValues.set 19 77).set Metric.MemoryTracking.toNat
            (wrap64 (1000 + 500 - 200)))
      ∧ load ((initialValues.set 19 77).set Metric.MemoryTracking.toNat
            (wrap64 (1000 + 500 - 200))) Metric.MemoryTracking.toNat
        = .ok (wrap64 (1000 + 500 - 200))
      ∧ wrap64 (1000 + 500 - 200) = 1300 :=
  ⟨by decide,
    set_add_sub_value (initialValues.set 19 77) .MemoryTracking 1000 500 200 77 (by decide)⟩

/-- C7 (as stated, refuted). A handle constructed on `Query` and retired by
`destroy()`, or moved from, is reachable through the public interface; on it
`changeTo(5)` and `destroy()` dereference the null `what` instead of
completing. -/
theorem changeTo_on_empty_faults :
    Increment.ctorThenRun initialValues .Query 1 [.destroy]
        = .ok (initialValues, { what := none, amount := 1 })
      ∧ Increment.changeTo initialValues { what := none, amount := 1 } 5
        = .error .nullDereference
      ∧ Increment.ctorThenRun initialValues .Query 1 [.moveFrom]
        = .ok (initialValues.set 0 1, { what := none, amount := 1 })
      ∧ Increment.changeTo (initialValues.set 0 1) { what := none, amount := 1 } 5
        = .error .nullDereference
      ∧ Increment.destroy (initialValues.set 0 1) { what := none, amount := 1 }
        = .error .nullDereference := by
  decide

/-- C7 (amended). For every handle state reached by a successful
construction followed by any sequence of successful `changeTo`, `destroy` and
move steps: the destructor completes; if the handle holds a slot reference,
`changeTo` (with any amount) and `destroy` complete; if the handle is empty,
`changeTo` (with any amount) and `destroy` dereference the null `what`. -/
theorem reachable_handle_ops (values0 : Registry) (m : Metric) (k : Value)
    (ops : List HandleOp) (values : Registry) (h : Increment)
    (hrun : Increment.ctorThenRun values0 m k ops = .ok (values, h)) :
    (∃ values1, Increment.dtor values h = .ok values1)
      ∧ (h.what ≠ none →
          (∀ n, ∃ p, Increment.changeTo values h n = .ok p)
            ∧ ∃ p, Increment.destroy values h = .ok p)
      ∧ (h.what = none →
          (∀ n, Increment.changeTo values h n = .error .nullDereference)
            ∧ Increment.destroy values h = .error .nullDereference) := by
  obtain ⟨_, hin⟩ := ctorThenRun_inv ops hrun
  cases h with
  | mk what amount =>
    cases what with
    | none =>
      refine ⟨⟨values, rfl⟩, fun hne => absurd rfl hne, fun _ => ⟨fun _ => rfl, rfl⟩⟩
    | some slot =>
      have hlt : slot < values.length := hin slot rfl
      refine ⟨fetchSub_total amount hlt, fun _ => ⟨fun n => ?_, ?_⟩, fun hnone => ?_⟩
      · obtain ⟨r, hr⟩ := fetchAdd_total (wrap64 (n - amount)) hlt
        exact ⟨(r, { what := some slot, amount := n }), by
          simp [Increment.changeTo, derefAdd, hr]⟩
      · obtain ⟨r, hr⟩ := fetchSub_total amount hlt
        exact ⟨(r, { what := none, amount := amount }), by
          simp [Increment.destroy, derefSub, hr]⟩
      · simp at hnone

theorem reachable_handle_ops_witness :
    Increment.ctorThenRun initialValues .Query 1 [.changeTo 4, .moveTo]
        = .ok (initialValues.set 0 4, { what := some 0, amount := 4 })
      ∧ (∃ values1, Increment.dtor (initialValues.set 0 4) { what := some 0, amount := 4 }
          = .ok values1)
      ∧ (({ what := some 0, amount := 4 } : Increment).what ≠ none →
          (∀ n, ∃ p, Increment.changeTo (initialValues.set 0 4)
              { what := some 0, amount := 4 } n = .ok p)
            ∧ ∃ p, Increment.destroy (initialValues.set 0 4)
              { what := some 0, amount := 4 } = .ok p)
      ∧ (({ what := some 0, amount := 4 } : Increment).what = none →
          (∀ n, Increment.changeTo (initialValues.set 0 4)
              { what := some 0, amount := 4 } n = .error .nullDereference)
            ∧ Increment.destroy (initialValues.set 0 4)
              { what := some 0, amount := 4 } = .error .nullDereference) :=
  ⟨by decide,
    reachable_handle_ops initialValues .Query 1 [.changeTo 4, .moveTo]
      (initialValues.set 0 4) { what := some 0, amount := 4 } (by decide)⟩

/-- C9. In a table of `END` slots holding `int64_t` values, for a valid metric
`m` and any `d`: `sub(m, d)` is `add(m, -d)` with the negation taken in
`int64_t` (where the negation of `-2^63` is `-2^63`); `add(m, d)` followed by
`sub(m, d)` succeeds and gives back the table; and for every `N`, `N` calls
`add(m, 1)` followed by `N` calls `sub(m, 1)` succeed and give back the
table. -/
theorem sub_undoes_add (values : Registry) (m : Metric) (d : Value)
    (hwf : values.wf) (hm : m.valid) :
    sub values m d = add values m (wrap64 (-d))
      ∧ wrap64 (-(-9223372036854775808)) = -9223372036854775808
      ∧ (∃ values1, add values m d = .ok values1 ∧ sub values1 m d = .ok values)
      ∧ ∀ N, ∃ values1, repeatCalls (fun r => add r m 1) N values = .ok values1
          ∧ repeatCalls (fun r => sub r m 1) N values1 = .ok values := by
  obtain ⟨v, hv, hr⟩ := wf_getElem? hwf hm
  refine ⟨rfl, by decide, ⟨_, add_of_get d hv, ?_⟩, fun N => ⟨_, repeatCalls_add_from 1 N hv hr, ?_⟩⟩
  · rw [sub_of_get d (getElem?_set_same _ hv), List.set_set, wrap64_add_neg_cancel,
      wrap64_of_isInt64 hr, set_same hv]
  · show repeatCalls (fun r => add r m (wrap64 (-1))) N _ = _
    rw [repeatCalls_add (wrap64 (-1)) _ N hv, wrap64_neg_one]
    have e : v + (N : Int) * 1 + (N : Int) * (-1) = v := by ring
    rw [e, wrap64_of_isInt64 hr, set_same hv]

theorem sub_undoes_add_witness :
    Registry.wf (initialValues.set 3 9223372036854775807) ∧ Metric.ReplicatedSend.valid
      ∧ sub (initialValues.set 3 9223372036854775807) .ReplicatedSend (-9223372036854775808)
        = add (initialValues.set 3 9223372036854775807) .ReplicatedSend
            (wrap64 (-(-9223372036854775808)))
      ∧ wrap64 (-(-9223372036854775808)) = -9223372036854775808
      ∧ (∃ values1,
          add (initialValues.set 3 9223372036854775807) .ReplicatedSend (-9223372036854775808)
            = .ok values1
          ∧ sub values1 .ReplicatedSend (-9223372036854775808)
            = .ok (initialValues.set 3 9223372036854775807))
      ∧ ∀ N, ∃ values1,
          repeatCalls (fun r => add r .ReplicatedSend 1) N
              (initialValues.set 3 9223372036854775807) = .ok values1
          ∧ repeatCalls (fun r => sub r .ReplicatedSend 1) N values1
            = .ok (initialValues.set 3 9223372036854775807) :=
  ⟨by decide, by decide,
    sub_undoes_add (initialValues.set 3 9223372036854775807) .ReplicatedSend
      (-9223372036854775808) (by decide) (by decide)⟩

/-- C10. In a table of `END` slots holding `int64_t` values, with slot `m`
present at value `v`, and for any amounts `a` and `b` (arithmetic in
`int64_t`): constructing `A` on `(m, a)` leaves `v + a` in the slot;
constructing `B` on `(m, b)` then leaves `v + a + b`; the destructor of `A`
then leaves `v + b`, and the destructor of `B` then gives back the table; if
instead `B` is destroyed first the slot reads `v + a`, and the destructor of
`A` then gives back the table as well. -/
theorem two_handles_same_gauge (values : Registry) (m : Metric) (a b v : Value)
    (hwf : values.wf) (hv : values[m.toNat]? = some v) :
    Increment.ctor values m a
        = .ok (values.set m.toNat (wrap64 (v + a)), { what := some m.toNat, amount := a })
      ∧ Increment.ctor (values.set m.toNat (wrap64 (v + a))) m b
        = .ok (values.set m.toNat (wrap64 (v + a + b)), { what := some m.toNat, amount := b })
      ∧ Increment.dtor (values.set m.toNat (wrap64 (v + a + b)))
          { what := some m.toNat, amount := a }
        = .ok (values.set m.toNat (wrap64 (v + b)))
      ∧ Increment.dtor (values.set m.toNat (wrap64 (v + b)))
          { what := some m.toNat, amount := b }
        = .ok values
      ∧ Increment.dtor (values.set m.toNat (wrap64 (v + a + b)))
          { what := some m.toNat, amount := b }
        = .ok (values.set m.toNat (wrap64 (v + a)))
      ∧ Increment.dtor (values.set m.toNat (wrap64 (v + a)))
          { what := some m.toNat, amount := a }
        = .ok values := by
  have hr : isInt64 v := by
    have hlt := getElem?_lt hv
    rw [← getElem_of_getElem? hv hlt]
    exact hwf.2 _ (List.getElem_mem hlt)
  refine ⟨ctor_of_get a hv, ?_, ?_, ?_, ?_, ?_⟩
  · rw [ctor_of_get b (getElem?_set_same _ hv), List.set_set, wrap64_add_wrap64]
  · rw [dtor_of_get a (getElem?_set_same _ hv), List.set_set, wrap64_drop_first]
  · rw [dtor_of_get b (getElem?_set_same _ hv), set_add_sub_restore b hv hr]
  · rw [dtor_of_get b (getElem?_set_same _ hv), List.set_set, wrap64_drop_second]
  · rw [dtor_of_get a (getElem?_set_same _ hv), set_add_sub_restore a hv hr]

theorem two_handles_same_gauge_witness :
    initialValues.wf ∧ initialValues[Metric.Query.toNat]? = some 0
      ∧ Increment.ctor initialValues .Query 1
        = .ok (initialValues.set 0 1, { what := some 0, amount := 1 })
      ∧ Increment.ctor (initialValues.set 0 1) .Query 1
        = .ok (initialValues.set 0 2, { what := some 0, amount := 1 })
      ∧ Increment.dtor (initialValues.set 0 2) { what := some 0, amount := 1 }
        = .ok (initialValues.set 0 1)
      ∧ Increment.dtor (initialValues.set 0 1) { what := some 0, amount := 1 }
        = .ok initialValues
      ∧ Increment.dtor (initialValues.set 0 2) { what := some 0, amount := 1 }
        = .ok (initialValues.set 0 1)
      ∧ Increment.dtor (initialValues.set 0 1) { what := some 0, amount := 1 }
        = .ok initialValues
      ∧ load (initialValues.set 0 1) Metric.Query.toNat = .ok 1
      ∧ load (initialValues.set 0 2) Metric.Query.toNat = .ok 2
      ∧ load initialValues Metric.Query.toNat = .ok 0 :=
  have t := two_handles_same_gauge initialValues .Query 1 1 0 (by decide) (by decide)
  ⟨by decide, by decide, t.1, t.2.1, t.2.2.1, t.2.2.2.1, t.2.2.2.2.1, t.2.2.2.2.2,
    by decide, by decide, by decide⟩

/-- C11. The sentinel `END` is 33, the number of entries of
`APPLY_FOR_METRICS` before it, with `Query` = 0 and
`MaxPartCountForPartition` = 32; the value of every enumerator is its
position in the list; the metrics below `END` are exactly the enumerators
other than the sentinel and their values are exactly the integers `0..END-1`,
distinct enumerators having distinct values; for every enumerator
`getDescription` returns the text of the list entry of that enumerator (the
text "Query" for `Query`, for instance), and distinct enumerators have
distinct descriptions. -/
theorem catalog_in_step :
    END = 33 ∧ Metric.Query.toNat = 0 ∧ Metric.MaxPartCountForPartition.toNat = 32
      ∧ APPLY_FOR_METRICS.length = END + 1
      ∧ descriptions.length = END + 1
      ∧ (∀ m : Metric, (APPLY_FOR_METRICS[m.toNat]?).map Prod.fst = some m)
      ∧ (∀ m : Metric, m.valid ↔ m ≠ Metric.END)
      ∧ (∀ n : Nat, n < END → ∃ m : Metric, m.valid ∧ m.toNat = n)
      ∧ (∀ m m1 : Metric, m.toNat = m1.toNat → m = m1)
      ∧ (∀ m : Metric, ∃ s, getDescription m = .ok s ∧ APPLY_FOR_METRICS[m.toNat]? = some (m, s))
      ∧ getDescription .Query = .ok "Query"
      ∧ getDescription .MaxPartCountForPartition = .ok "MaxPartCountForPartition"
      ∧ (∀ m m1 : Metric, getDescription m = getDescription m1 → m = m1) := by
  refine ⟨rfl, rfl, rfl, rfl, rfl, ?_, ?_, ?_, toNat_injective, ?_, by decide, by decide, ?_⟩
  · intro m; cases m <;> rfl
  · intro m; cases m <;> decide
  · intro n hn
    have h33 : n < 33 := hn
    interval_cases n
    · exact ⟨.Query, by decide, rfl⟩
    · exact ⟨.Merge, by decide, rfl⟩
    · exact ⟨.ReplicatedFetch, by decide, rfl⟩
    · exact ⟨.ReplicatedSend, by decide, rfl⟩
    · exact ⟨.ReplicatedChecks, by decide, rfl⟩
    · exact ⟨.BackgroundPoolTask, by decide, rfl⟩
    · exact ⟨.DiskSpaceReservedForMerge, by decide, rfl⟩
    · exact ⟨.DistributedSend, by decide, rfl⟩
    · exact ⟨.QueryPreempted, by decide, rfl⟩
    · exact ⟨.TCPConnection, by decide, rfl⟩
    · exact ⟨.HTTPConnection, by decide, rfl⟩
    · exact ⟨.InterserverConnection, by decide, rfl⟩
    · exact ⟨.OpenFileForRead, by decide, rfl⟩
    · exact ⟨.OpenFileForWrite, by decide, rfl⟩
    · exact ⟨.Read, by decide, rfl⟩
    · exact ⟨.Write, by decide, rfl⟩
    · exact ⟨.SendExternalTables, by decide, rfl⟩
    · exact ⟨.QueryThread, by decide, rfl⟩
    · exact ⟨.ReadonlyReplica, by decide, rfl⟩
    · exact ⟨.MemoryTracking, by decide, rfl⟩
    · exact ⟨.MarkCacheBytes, by decide, rfl⟩
    · exact ⟨.MarkCacheFiles, by decide, rfl⟩
    · exact ⟨.UncompressedCacheBytes, by decide, rfl⟩
    · exact ⟨.UncompressedCacheCells, by decide, rfl⟩
    · exact ⟨.ReplicasMaxQueueSize, by decide, rfl⟩
    · exact ⟨.ReplicasMaxInsertsInQueue, by decide, rfl⟩
    · exact ⟨.ReplicasMaxMergesInQueue, by decide, rfl⟩
    · exact ⟨.ReplicasSumQueueSize, by decide, rfl⟩
    · exact ⟨.ReplicasSumInsertsInQueue, by decide, rfl⟩
    · exact ⟨.ReplicasSumMergesInQueue, by decide, rfl⟩
    · exact ⟨.ReplicasMaxAbsoluteDelay, by decide, rfl⟩
    · exact ⟨.ReplicasMaxRelativeDelay, by decide, rfl⟩
    · exact ⟨.MaxPartCountForPartition, by decide, rfl⟩
  · intro m; cases m <;> exact ⟨_, rfl, rfl⟩
  · intro m m1 h
    apply toNat_injective
    cases m <;> cases m1 <;> first | rfl | (exact absurd h (by decide))

/-- C12. In a table of `END` slots, for a metric below `END` and any value:
the index of the metric is inside the table `values` and inside the table
`descriptions`, and `set`, `add`, `sub`, the constructor `Increment(m, x)` and
`getDescription` all return a result. -/
theorem valid_metric_ops_total (values : Registry) (m : Metric) (x : Value)
    (hlen : values.length = END) (hm : m.valid) :
    m.toNat < values.length ∧ m.toNat < descriptions.length
      ∧ (∃ r, set values m x = .ok r)
      ∧ (∃ r, add values m x = .ok r)
      ∧ (∃ r, sub values m x = .ok r)
      ∧ (∃ p, Increment.ctor values m x = .ok p)
      ∧ (∃ s, getDescription m = .ok s) := by
  have hlt : m.toNat < values.length := by rw [hlen]; exact hm
  have hd : m.toNat < descriptions.length := Nat.lt_trans hm (by decide)
  have hv : values[m.toNat]? = some values[m.toNat] := by simp [hlt]
  exact ⟨hlt, hd, ⟨_, store_of_get x hv⟩, ⟨_, add_of_get x hv⟩, ⟨_, sub_of_get x hv⟩,
    ⟨_, ctor_of_get x hv⟩, ⟨descriptions[m.toNat], by simp [getDescription, hd]⟩⟩

theorem valid_metric_ops_total_witness :
    initialValues.length = END ∧ Metric.MaxPartCountForPartition.valid
      ∧ Metric.MaxPartCountForPartition.toNat < initialValues.length
      ∧ Metric.MaxPartCountForPartition.toNat < descriptions.length
      ∧ (∃ r, set initialValues .MaxPartCountForPartition 5 = .ok r)
      ∧ (∃ r, add initialValues .MaxPartCountForPartition 5 = .ok r)
      ∧ (∃ r, sub initialValues .MaxPartCountForPartition 5 = .ok r)
      ∧ (∃ p, Increment.ctor initialValues .MaxPartCountForPartition 5 = .ok p)
      ∧ (∃ s, getDescription .MaxPartCountForPartition = .ok s) :=
  ⟨by decide, by decide,
    valid_metric_ops_total initialValues .MaxPartCountForPartition 5 (by decide) (by decide)⟩

/-- C16. On a table of `END` slots of `int64_t`, a list of `add` and `sub`
calls on valid metrics, with any values, succeeds, and so does every
permutation of it, with the same final table; every slot of that table holds
its prior value plus the sum of the differences addressed to it, modulo
`2^64`. With `set` the order matters: from the all-zero table, `set(Query, 5)`
then `add(Query, 1)` leaves 6, `add(Query, 1)` then `set(Query, 5)` leaves 5. -/
theorem add_sub_order_independent (values : Registry) (calls calls1 : List Call)
    (hwf : values.wf) (hvalid : ∀ c ∈ calls, c.metric.valid) (hperm : calls1.Perm calls) :
    (∃ final, runCalls values calls = .ok final ∧ runCalls values calls1 = .ok final
        ∧ final.length = END
        ∧ ∀ slot v, values[slot]? = some v →
            final[slot]? = some (wrap64 (v + netDelta slot calls)))
      ∧ set initialValues .Query 5 = .ok (initialValues.set 0 5)
      ∧ add (initialValues.set 0 5) .Query 1 = .ok (initialValues.set 0 6)
      ∧ add initialValues .Query 1 = .ok (initialValues.set 0 1)
      ∧ set (initialValues.set 0 1) .Query 5 = .ok (initialValues.set 0 5)
      ∧ initialValues.set 0 6 ≠ initialValues.set 0 5 := by
  refine ⟨?_, by decide, by decide, by decide, by decide, by decide⟩
  obtain ⟨final, hrun, hfwf, hslots⟩ := runCalls_spec calls values hwf hvalid
  obtain ⟨final1, hrun1, hfwf1, hslots1⟩ := runCalls_spec calls1 values hwf
    (fun c hc => hvalid c ((hperm.mem_iff).mp hc))
  have e : final1 = final := by
    apply registry_ext (hfwf.1.trans hwf.1.symm) (hfwf1.1.trans hwf.1.symm)
    intro slot v hv
    rw [hslots slot v hv, hslots1 slot v hv, netDelta_perm slot hperm]
  exact ⟨final, hrun, e ▸ hrun1, hfwf.1, hslots⟩

theorem add_sub_order_independent_witness :
    initialValues.wf
      ∧ (∀ c ∈ [Call.add .Query 5, Call.sub .Merge 2, Call.add .Query (-7)], c.metric.valid)
      ∧ [Call.sub .Merge 2, Call.add .Query (-7), Call.add .Query 5].Perm
          [Call.add .Query 5, Call.sub .Merge 2, Call.add .Query (-7)]
      ∧ (∃ final,
          runCalls initialValues [Call.add .Query 5, Call.sub .Merge 2, Call.add .Query (-7)]
            = .ok final
          ∧ runCalls initialValues [Call.sub .Merge 2, Call.add .Query (-7), Call.add .Query 5]
            = .ok final
          ∧ final.length = END
          ∧ ∀ slot v, initialValues[slot]? = some v →
              final[slot]? = some (wrap64 (v + netDelta slot
                [Call.add .Query 5, Call.sub .Merge 2, Call.add .Query (-7)])))
      ∧ set initialValues .Query 5 = .ok (initialValues.set 0 5)
      ∧ add (initialValues.set 0 5) .Query 1 = .ok (initialValues.set 0 6)
      ∧ add initialValues .Query 1 = .ok (initialValues.set 0 1)
      ∧ set (initialValues.set 0 1) .Query 5 = .ok (initialValues.set 0 5)
      ∧ initialValues.set 0 6 ≠ initialValues.set 0 5 :=
  ⟨by decide, by decide, by decide,
    add_sub_order_independent initialValues
      [Call.add .Query 5, Call.sub .Merge 2, Call.add .Query (-7)]
      [Call.sub .Merge 2, Call.add .Query (-7), Call.add .Query 5]
      (by decide) (by decide) (by decide)⟩

/-- C13. Let any number of threads hold between them `N` calls `add(m, 1)`
and `N` calls `sub(m, 1)` on a valid metric `m`, distributed in any way, each
call being one atomic step on the table. Under every schedule the run does
not fault, and once no thread has a call left the table, slot `m` included,
is the table from before the calls. -/
theorem no_lost_update (values : Registry) (m : Metric) (N : Nat) (threads : Threads)
    (schedule : List Nat) (hwf : values.wf) (hm : m.valid)
    (hcalls : threads.flatten.Perm
      (List.replicate N (Call.add m 1) ++ List.replicate N (Call.sub m 1))) :
    ∃ values1 threads1, runSchedule values threads schedule = .ok (values1, threads1)
      ∧ (threads1.flatten = [] → values1 = values) := by
  have hvalid : ∀ c ∈ threads.flatten, c.metric.valid := by
    intro c hc
    have hc1 := (hcalls.mem_iff).mp hc
    rcases List.mem_append.mp hc1 with h | h
    · rw [(List.mem_replicate.mp h).2]; exact hm
    · rw [(List.mem_replicate.mp h).2]; exact hm
  obtain ⟨values1, threads1, hrun, hw1, hs⟩ := runSchedule_spec schedule values threads hwf hvalid
  refine ⟨values1, threads1, hrun, ?_⟩
  intro hdone
  apply registry_ext (Eq.refl values.length) (hw1.1.trans hwf.1.symm)
  intro slot v hv
  rw [hs slot v hv, hdone, netDelta_perm slot hcalls, netDelta_add_sub_replicate, netDelta_nil,
    Int.add_zero, Int.sub_zero, wrap64_of_isInt64 (wf_isInt64_of_get hwf hv)]
  exact hv.symm

theorem no_lost_update_witness :
    Registry.wf (initialValues.set 0 9223372036854775807) ∧ Metric.Query.valid
      ∧ List.Perm
          (List.flatten [[Call.add .Query 1, Call.sub .Query 1], [Call.sub .Query 1],
            [Call.add .Query 1]])
          (List.replicate 2 (Call.add .Query 1) ++ List.replicate 2 (Call.sub .Query 1))
      ∧ runSchedule (initialValues.set 0 9223372036854775807)
          [[Call.add .Query 1, Call.sub .Query 1], [Call.sub .Query 1], [Call.add .Query 1]]
          [1, 0, 2, 1, 0]
        = .ok (initialValues.set 0 9223372036854775807, [[], [], []])
      ∧ ∃ values1 threads1,
          runSchedule (initialValues.set 0 9223372036854775807)
            [[Call.add .Query 1, Call.sub .Query 1], [Call.sub .Query 1], [Call.add .Query 1]]
            [1, 0, 2, 1, 0]
          = .ok (values1, threads1)
          ∧ (threads1.flatten = [] → values1 = initialValues.set 0 9223372036854775807) :=
  ⟨by decide, by decide, by decide, by decide,
    no_lost_update (initialValues.set 0 9223372036854775807) .Query 2
      [[Call.add .Query 1, Call.sub .Query 1], [Call.sub .Query 1], [Call.add .Query 1]]
      [1, 0, 2, 1, 0] (by decide) (by decide) (by decide)⟩

/-- C14. From the state at process start (every gauge zero, no handle), after
any sequence of steps of constructing an `Increment`, `changeTo`, `destroy`,
move construction and destructor that runs without fault (so `changeTo` and
`destroy` only on non-empty handles) and contains no move assignment, the
table still has `END` slots and the slot of every metric holds, modulo
`2^64`, the sum of the stored amounts of the live handles that refer to it. -/
theorem handle_accounting (ops : List Op) (s : State)
    (hops : ∀ op ∈ ops, op.isMoveAssign = false)
    (hrun : State.initial.run ops = .ok s) :
    s.values.length = END
      ∧ ∀ m : Metric, m.valid →
          s.values[m.toNat]? = some (wrap64 (heldAt m.toNat s.handles)) := by
  have hacc := run_accounted ops accounted_initial hops hrun
  refine ⟨hacc.1.1, ?_⟩
  intro m hm
  obtain ⟨v, hv, _⟩ := wf_getElem? hacc.1 hm
  rw [hv, ← hacc.2 m.toNat v hv]

theorem handle_accounting_witness :
    (∀ op ∈ [Op.construct .Query 3, Op.construct .Query 4, Op.moveConstruct 0,
        Op.changeTo 2 10, Op.destroy 1, Op.destruct 0, Op.construct .Merge (-1)],
        op.isMoveAssign = false)
      ∧ State.initial.run [Op.construct .Query 3, Op.construct .Query 4, Op.moveConstruct 0,
          Op.changeTo 2 10, Op.destroy 1, Op.destruct 0, Op.construct .Merge (-1)]
        = .ok { values := (initialValues.set 0 10).set 1 (-1),
                handles := [{ what := none, amount := 4 }, { what := some 0, amount := 10 },
                  { what := some 1, amount := -1 }] }
      ∧ ((initialValues.set 0 10).set 1 (-1)).length = END
      ∧ ∀ m : Metric, m.valid →
          ((initialValues.set 0 10).set 1 (-1))[m.toNat]?
            = some (wrap64 (heldAt m.toNat
                [{ what := none, amount := 4 }, { what := some 0, amount := 10 },
                  { what := some 1, amount := -1 }])) :=
  ⟨by decide, by decide,
    handle_accounting
      [Op.construct .Query 3, Op.construct .Query 4, Op.moveConstruct 0,
        Op.changeTo 2 10, Op.destroy 1, Op.destruct 0, Op.construct .Merge (-1)]
      { values := (initialValues.set 0 10).set 1 (-1),
        handles := [{ what := none, amount := 4 }, { what := some 0, amount := 10 },
          { what := some 1, amount := -1 }] }
      (by decide) (by decide)⟩

/-- C15. With slot `m` present in the table: `set(m, x)`, `add(m, x)`,
`sub(m, x)`, the constructor `Increment(m, x)`, and `changeTo(x)`,
`destroy()` and the destructor of a handle bound to `m` all succeed and leave
a table of the same length in which the slot of every metric other than `m`
holds what it held before. In any state of the owner thread, a move
construction and a move assignment (between any two positions, distinct or
not) succeed and leave the table as it is. -/
theorem frame_property (values : Registry) (m : Metric) (x k v : Value) (s : State)
    (i j : Nat) (hv : values[m.toNat]? = some v) :
    (∃ r, set values m x = .ok r ∧ values.sameExcept r m)
      ∧ (∃ r, add values m x = .ok r ∧ values.sameExcept r m)
      ∧ (∃ r, sub values m x = .ok r ∧ values.sameExcept r m)
      ∧ (∃ r h, Increment.ctor values m x = .ok (r, h) ∧ values.sameExcept r m)
      ∧ (∃ r h, Increment.changeTo values { what := some m.toNat, amount := k } x = .ok (r, h)
          ∧ values.sameExcept r m)
      ∧ (∃ r h, Increment.destroy values { what := some m.toNat, amount := k } = .ok (r, h)
          ∧ values.sameExcept r m)
      ∧ (∃ r, Increment.dtor values { what := some m.toNat, amount := k } = .ok r
          ∧ values.sameExcept r m)
      ∧ (∃ s1, s.step (.moveConstruct i) = .ok s1 ∧ s1.values = s.values)
      ∧ (∃ s1, s.step (.moveAssign i j) = .ok s1 ∧ s1.values = s.values) := by
  refine ⟨⟨_, store_of_get x hv, sameExcept_set values m _⟩,
    ⟨_, add_of_get x hv, sameExcept_set values m _⟩,
    ⟨_, sub_of_get x hv, sameExcept_set values m _⟩,
    ⟨_, _, ctor_of_get x hv, sameExcept_set values m _⟩,
    ⟨_, _, changeTo_of_get k x hv, sameExcept_set values m _⟩,
    ⟨_, _, destroy_of_get k hv, sameExcept_set values m _⟩,
    ⟨_, dtor_of_get k hv, sameExcept_set values m _⟩, ?_, ?_⟩
  · simp only [State.step]
    split
    · exact ⟨s, rfl, rfl⟩
    · exact ⟨_, rfl, rfl⟩
  · simp only [State.step]
    split
    · exact ⟨s, rfl, rfl⟩
    · exact ⟨_, rfl, rfl⟩

theorem frame_property_witness :
    (initialValues.set 0 1)[Metric.Merge.toNat]? = some 0
      ∧ (∃ r, set (initialValues.set 0 1) .Merge 5 = .ok r
          ∧ Registry.sameExcept (initialValues.set 0 1) r .Merge)
      ∧ (∃ r, add (initialValues.set 0 1) .Merge 5 = .ok r
          ∧ Registry.sameExcept (initialValues.set 0 1) r .Merge)
      ∧ (∃ r, sub (initialValues.set 0 1) .Merge 5 = .ok r
          ∧ Registry.sameExcept (initialValues.set 0 1) r .Merge)
      ∧ (∃ r h, Increment.ctor (initialValues.set 0 1) .Merge 5 = .ok (r, h)
          ∧ Registry.sameExcept (initialValues.set 0 1) r .Merge)
      ∧ (∃ r h, Increment.changeTo (initialValues.set 0 1)
            { what := some Metric.Merge.toNat, amount := 2 } 5 = .ok (r, h)
          ∧ Registry.sameExcept (initialValues.set 0 1) r .Merge)
      ∧ (∃ r h, Increment.destroy (initialValues.set 0 1)
            { what := some Metric.Merge.toNat, amount := 2 } = .ok (r, h)
          ∧ Registry.sameExcept (initialValues.set 0 1) r .Merge)
      ∧ (∃ r, Increment.dtor (initialValues.set 0 1)
            { what := some Metric.Merge.toNat, amount := 2 } = .ok r
          ∧ Registry.sameExcept (initialValues.set 0 1) r .Merge)
      ∧ (∃ s1, State.step
            { values := initialValues.set 0 1, handles := [{ what := some 0, amount := 1 }] }
            (.moveConstruct 0) = .ok s1
          ∧ s1.values = initialValues.set 0 1)
      ∧ (∃ s1, State.step
            { values := initialValues.set 0 1, handles := [{ what := some 0, amount := 1 }] }
            (.moveAssign 0 0) = .ok s1
          ∧ s1.values = initialValues.set 0 1) :=
  ⟨by decide,
    frame_property (initialValues.set 0 1) .Merge 5 2 0
      { values := initialValues.set 0 1, handles := [{ what := some 0, amount := 1 }] } 0 0
      (by decide)⟩

/-- C17. Let the object at position `i` be a non-empty handle with slot `s`
and amount `k`, the slot being present with value `v`. The self move
assignment `h = std::move(h)` succeeds, leaves the table as it is and the
handle with a null `what` and the amount `k`; the destructor of the handle
afterwards succeeds and leaves the table as it is, so slot `s` still reads
`v`, whereas the destructor without the self assignment leaves `v - k` in
slot `s`. -/
theorem self_move_assign_drops (values : Registry) (handles : List Increment) (i s : Nat)
    (k v : Value) (hh : handles[i]? = some { what := some s, amount := k })
    (hv : values[s]? = some v) :
    State.step { values := values, handles := handles } (.moveAssign i i)
        = .ok { values := values, handles := handles.set i { what := none, amount := k } }
      ∧ State.step { values := values, handles := handles.set i { what := none, amount := k } }
          (.destruct i)
        = .ok { values := values, handles := handles.eraseIdx i }
      ∧ load values s = .ok v
      ∧ State.step { values := values, handles := handles } (.destruct i)
        = .ok { values := values.set s (wrap64 (v - k)), handles := handles.eraseIdx i } := by
  have hlt : i < handles.length := (List.getElem?_eq_some_iff.mp hh).1
  refine ⟨?_, ?_, load_of_get hv, ?_⟩
  · simp only [State.step, moveAssignAt_self hh]
  · have e : (handles.set i { what := none, amount := k })[i]?
        = some { what := none, amount := k } := by simp [hlt]
    simp only [State.step, e, Increment.dtor, eraseIdx_set_same]
  · simp only [State.step, hh, dtor_of_get k hv]

theorem self_move_assign_drops_witness :
    ([{ what := some 0, amount := 1 }] : List Increment)[0]? = some { what := some 0, amount := 1 }
      ∧ (initialValues.set 0 1)[0]? = some 1
      ∧ State.run State.initial [.construct .Query 1]
        = .ok { values := initialValues.set 0 1, handles := [{ what := some 0, amount := 1 }] }
      ∧ State.step
          { values := initialValues.set 0 1, handles := [{ what := some 0, amount := 1 }] }
          (.moveAssign 0 0)
        = .ok { values := initialValues.set 0 1,
                handles := [{ what := some 0, amount := 1 }].set 0 { what := none, amount := 1 } }
      ∧ State.step
          { values := initialValues.set 0 1,
            handles := [{ what := some 0, amount := 1 }].set 0 { what := none, amount := 1 } }
          (.destruct 0)
        = .ok { values := initialValues.set 0 1,
                handles := [{ what := some 0, amount := 1 }].eraseIdx 0 }
      ∧ load (initialValues.set 0 1) 0 = .ok 1
      ∧ State.step
          { values := initialValues.set 0 1, handles := [{ what := some 0, amount := 1 }] }
          (.destruct 0)
        = .ok { values := (initialValues.set 0 1).set 0 (wrap64 (1 - 1)),
                handles := [{ what := some 0, amount := 1 }].eraseIdx 0 } :=
  ⟨by decide, by decide, by decide,
    self_move_assign_drops (initialValues.set 0 1) [{ what := some 0, amount := 1 }] 0 0 1 1
      (by decide) (by decide)⟩

end CurrentMetrics
